import Mathlib

/-!
Verification of the `nim-react-toastify` scaffolding CLI (src/cli.js).

The development shallowly embeds the string-rewriting core of the CLI over
`List Char`:

* `wrapJSXReturn` — the JSX-return wrapper (cli.js lines 202-235), with its
  regex `/return\s*\(\s*<[^>]/m` modelled by `matchReturnAt`/`findFrom`, the
  parenthesis-depth scan by `parenScan`, and the (dead) duplicate-wrap guard
  regex literal `/\<\s*${Provider}\b/` by `guardAt`/`guardMatch`.
* `importStep` — the import inserter (lines 107-123).
* `wrapPhase` — the wrap step plus the two fallback strategies (lines 126-159).
* `detectStack`, `candidates`/`findRoot` — stack detection and root lookup.
* `runBody`/`runCli` — the whole `run` pipeline over an abstract file-system
  environment `Env`, recording write effects as `FsEvent`s.

JavaScript strings are `List Char`; JS regexes are modelled by deterministic
matchers (each regex used in cli.js is backtracking-free: every starred class
is followed by a character excluded from the class, so the greedy parse is
the only parse).
-/

/-- The JS `\s` class (whitespace per ECMA-262): ASCII whitespace plus the
Unicode space separators, NBSP, BOM and the line/paragraph separators. -/
def jsWs (c : Char) : Bool :=
  c == ' ' || c == '\t' || c == '\n' || c == '\r' || c == '\x0b' || c == '\x0c' ||
  (decide (c.toNat = 0xA0)) || (decide (0x1680 = c.toNat)) ||
  (decide (0x2000 ≤ c.toNat) && decide (c.toNat ≤ 0x200A)) ||
  (decide (c.toNat = 0x2028)) || (decide (c.toNat = 0x2029)) ||
  (decide (c.toNat = 0x202F)) || (decide (c.toNat = 0x205F)) ||
  (decide (c.toNat = 0x3000)) || (decide (c.toNat = 0xFEFF))

/-- Decidable prefix test on character lists. -/
def isPrefixL : List Char → List Char → Bool
  | [], _ => true
  | _ :: _, [] => false
  | a :: x, b :: y => a == b && isPrefixL x y

/-- JS `String.prototype.includes`: `pat` occurs as a contiguous substring. -/
def containsL : List Char → List Char → Bool
  | s, pat =>
    isPrefixL pat s ||
      match s with
      | [] => false
      | _ :: t => containsL t pat

/-- Case-insensitive prefix test (simple lower-casing, as the `/i` flag does
for the ASCII patterns cli.js uses). -/
def ciStarts : List Char → List Char → Bool
  | [], _ => true
  | _ :: _, [] => false
  | a :: x, b :: y => (a.toLower == b.toLower) && ciStarts x y

/-- Literal `"return"` as a character list. -/
def retL : List Char := ("return").toList

/-- Literal `"NotificationsProvider"` (the CLI's fixed provider name). -/
def npL : List Char := ("NotificationsProvider").toList

/-- The opening tag the CLI splices in: `<NotificationsProvider>`. -/
def openNP : List Char := '<' :: npL ++ ['>']

/-- The closing tag the CLI splices in: `</NotificationsProvider>`. -/
def closeNP : List Char := '<' :: '/' :: npL ++ ['>']

/-- Wrap `inside` in the provider tags, as the template literal
`<${Provider}>${inside}</${Provider}>` does with `Provider` the fixed name. -/
def wrapNP (inside : List Char) : List Char := openNP ++ inside ++ closeNP

/-- One attempt of the regex `/return\s*\(\s*<[^>]/` at the head of `l`:
`some n` is the length of the (unique, greedy) match. -/
def matchReturnAt (l : List Char) : Option Nat :=
  if l.take 6 = retL then
    match (l.drop 6).dropWhile jsWs with
    | c1 :: l2 =>
      if c1 = '(' then
        match l2.dropWhile jsWs with
        | c2 :: c :: _ =>
          if c2 = '<' then
            if c = '>' then none
            else some (9 + ((l.drop 6).takeWhile jsWs).length + (l2.takeWhile jsWs).length)
          else none
        | _ => none
      else none
    | _ => none
  else none

/-- Leftmost-match search: try the matcher at every position from left to
right, as `String.prototype.match` does for a non-global regex. -/
def findFrom {α : Type} (f : List Char → Option α) : List Char → Nat → Option (Nat × α)
  | l, i =>
    match f l with
    | some a => some (i, a)
    | none =>
      match l with
      | [] => none
      | _ :: t => findFrom f t (i + 1)

/-- The depth scan of cli.js lines 209-223: walk from index `i`, incrementing
on `'('`, stopping at the first `')'` seen at depth 0 (returning its absolute
index), decrementing on other `')'`; `none` when the string ends first. -/
def parenScan : List Char → Nat → Nat → Option Nat
  | [], _, _ => none
  | c :: t, i, d =>
    if c == '(' then parenScan t (i + 1) (d + 1)
    else if c == ')' then
      if d = 0 then some i else parenScan t (i + 1) (d - 1)
    else parenScan t (i + 1) d

/-- Companion to `parenScan`: traverse a whole list from depth `d` and return
the final depth, or `none` when the scan would have stopped inside it. -/
def scanPrefixDepth : List Char → Nat → Option Nat
  | [], d => some d
  | c :: t, d =>
    if c == '(' then scanPrefixDepth t (d + 1)
    else if c == ')' then
      if d = 0 then none else scanPrefixDepth t (d - 1)
    else scanPrefixDepth t d

/-- The literal characters `{Provider}` that appear in the guard regex literal
`/\<\s*${Provider}\b/` of cli.js line 231 (a regex literal, so `${...}` is NOT
interpolated: `$` is the end-of-input anchor and `{Provider}` is literal). -/
def braceProviderL : List Char := ("\x7bProvider\x7d").toList

/-- One attempt of the guard regex `/\<\s*${Provider}\b/` at the head of `l`:
`'<'`, then greedy `\s*`, then the `$` anchor requires the remaining input to
be empty, after which the literal `{Provider}` must still match — against the
empty rest. (Backtracking the `\s*` cannot help: giving back whitespace moves
away from the end of input.) -/
def guardAt : List Char → Bool
  | [] => false
  | c :: t =>
    c == '<' && ((t.dropWhile jsWs).isEmpty && isPrefixL braceProviderL [])

/-- The duplicate-wrap guard test of cli.js line 231 over every start
position. -/
def guardMatch (l : List Char) : Bool := l.tails.any guardAt

/-- `wrapJSXReturn(code, Provider)` of cli.js lines 202-235 with
`Provider = "NotificationsProvider"`: find the first match of
`/return\s*\(\s*<[^>]/m`, set `start = m.index + m[0].length - 1`, depth-scan
from `start` for the closing parenthesis, and splice the provider tags around
`code.slice(start, endIdx)` unless the (never-matching) guard fires. -/
def wrapJSXReturn (code : List Char) : List Char :=
  match findFrom matchReturnAt code 0 with
  | none => code
  | some (idx, len) =>
    let start := idx + len - 1
    match parenScan (code.drop start) start 0 with
    | none => code
    | some endIdx =>
      let inside := (code.drop start).take (endIdx - start)
      if guardMatch inside then code
      else code.take start ++ wrapNP inside ++ code.drop endIdx

/-- Literal `"import"`. -/
def importL : List Char := ("import").toList

/-- Literal `"import "` (with the trailing space of the line pattern). -/
def importSpL : List Char := ("import ").toList

/-- The characters JS `.` does not match (line terminators). -/
def notLineTerm (c : Char) : Bool :=
  !(c == '\n' || c == '\r' || decide (c.toNat = 0x2028) || decide (c.toNat = 0x2029))

/-- Length matched by the greedy `.*;?` tail of the import-line pattern: the
rest of the line (after which the optional `;` necessarily matches empty). -/
def lineTail (l : List Char) : Nat := (l.takeWhile notLineTerm).length

/-- The `\n` alternative of `/(^|\n)import .*;?/` at the head of `l`:
consume a `'\n'`, then the literal line; the leading `'\n'` counts in the
matched length. -/
def matchImportNL (l : List Char) : Option Nat :=
  match l with
  | c :: t =>
    if c = '\n' then
      if t.take 7 = importSpL then some (8 + lineTail (t.drop 7)) else none
    else none
  | [] => none

/-- One attempt of `/(^|\n)import .*;?/` at the head of `l`; `atStart` tells
whether this position is the start of the whole string. There the engine
tries the `^` alternative first and, when its literal fails, backtracks into
the `\n` alternative at the same position (so a string beginning
`"\nimport "` matches at index 0 with the `'\n'` included); elsewhere `^`
cannot match (no `m` flag) and only the `\n` alternative is attempted. -/
def matchImportAt (atStart : Bool) (l : List Char) : Option Nat :=
  if atStart then
    if l.take 7 = importSpL then some (7 + lineTail (l.drop 7))
    else matchImportNL l
  else matchImportNL l

/-- Fueled scan for `code.match(/(^|\n)import .*;?/g)`: successive leftmost
non-overlapping matches, resuming right after each match as the `g` flag
does. Fuel only bounds the recursion; `importMatches` supplies enough. -/
def importMatchesAux : Nat → List Char → Bool → Nat → List (Nat × Nat)
  | 0, _, _, _ => []
  | fuel + 1, l, atStart, i =>
    match matchImportAt atStart l with
    | some len => (i, len) :: importMatchesAux fuel (l.drop len) false (i + len)
    | none =>
      match l with
      | [] => []
      | _ :: t => importMatchesAux fuel t false (i + 1)

/-- All `(index, length)` matches of the global import-line regex. -/
def importMatches (code : List Char) : List (Nat × Nat) :=
  importMatchesAux (code.length + 1) code true 0

/-- The `'\x7b'` character (written escaped). -/
def braceOpenC : Char := '\x7b'

/-- The `'\x7d'` character (written escaped). -/
def braceCloseC : Char := '\x7d'

/-- One attempt of `new RegExp("import\\s*\\{\\s*NotificationsProvider\\s*\\}")`
at the head of `l` (this RegExp IS built from a template string, so the
provider name is interpolated here, unlike the guard of line 231). -/
def importRegexAt (l : List Char) : Bool :=
  if l.take 6 = importL then
    match (l.drop 6).dropWhile jsWs with
    | c :: t =>
      c == braceOpenC &&
        (let t2 := t.dropWhile jsWs
         if t2.take 21 = npL then
           match (t2.drop 21).dropWhile jsWs with
           | d :: _ => d == braceCloseC
           | [] => false
         else false)
    | [] => false
  else false

/-- `code.match(new RegExp("import\\s*\\{\\s*NotificationsProvider\\s*\\}"))`
as a Bool: a match at some position. -/
def importProviderRegex (s : List Char) : Bool := s.tails.any importRegexAt

/-- JS `String.prototype.lastIndexOf`: the greatest index at which `pat`
occurs in `s` (searched from position `n` downward), `none` for JS `-1`. -/
def lastOccAux (s pat : List Char) : Nat → Option Nat
  | 0 => if isPrefixL pat s then some 0 else none
  | n + 1 => if isPrefixL pat (s.drop (n + 1)) then some (n + 1) else lastOccAux s pat n

/-- `s.lastIndexOf(pat)` (`none` standing for `-1`). -/
def jsLastIndexOf (s pat : List Char) : Option Nat := lastOccAux s pat s.length

/-- The import-insertion step of cli.js lines 107-123 for a computed import
line `iL`: skip when `code` contains `iL` or matches the provider-import
regex; otherwise insert `"\n" + iL + "\n"` after
`lastIndexOf(lastImport) + lastImport.length` where `lastImport` is the text
of the last import-line match, or prepend `iL + "\n"` when no line matches.
(The `none` branch of `jsLastIndexOf` mirrors JS `-1 + lastImport.length`;
it is unreachable since the matched text occurs at its own match index.) -/
def importIdx (code : List Char) (p len : Nat) : Nat :=
  match jsLastIndexOf code ((code.drop p).take len) with
  | some q => q + len
  | none => len - 1

/-- The import-insertion step of cli.js lines 107-123 (body): see the wrapper
doc above. -/
def importStep (code iL : List Char) : List Char :=
  if containsL code iL || importProviderRegex code then code
  else
    match (importMatches code).getLast? with
    | none => iL ++ '\n' :: code
    | some (p, len) =>
      code.take (importIdx code p len) ++
        '\n' :: (iL ++ '\n' :: code.drop (importIdx code p len))

/-- One attempt of `/return\s*\(\s*/` (the generic-fallback replace pattern;
its matchability coincides with the tested `/return\s*\(/`): returns the
greedy match length, trailing whitespace after the parenthesis included. -/
def genMatchAt (l : List Char) : Option Nat :=
  if l.take 6 = retL then
    match (l.drop 6).dropWhile jsWs with
    | c1 :: l2 =>
      if c1 = '(' then
        some (7 + ((l.drop 6).takeWhile jsWs).length + (l2.takeWhile jsWs).length)
      else none
    | [] => none
  else none

/-- `/return\s*\(/.test(code)`. -/
def returnParenTest (s : List Char) : Bool := (findFrom genMatchAt s 0).isSome

/-- Literal `");"`. -/
def parenSemiL : List Char := (");").toList

/-- The generic fallback of cli.js lines 148-158: replace the first
`/return\s*\(\s*/` match `m` by `m + "<NotificationsProvider>"`, then (on the
new string) insert `"</NotificationsProvider>"` immediately before the last
occurrence of `");"` when there is one. -/
def genericFallback (s : List Char) : List Char :=
  let s1 :=
    match findFrom genMatchAt s 0 with
    | none => s
    | some (p, len) => s.take (p + len) ++ openNP ++ s.drop (p + len)
  match jsLastIndexOf s1 parenSemiL with
  | none => s1
  | some q => s1.take q ++ closeNP ++ s1.drop q

/-- Literal `"<html"`. -/
def htmlOpenL : List Char := ("<html").toList

/-- Literal `"<body"`. -/
def bodyOpenL : List Char := ("<body").toList

/-- Literal `"</body>"`. -/
def bodyCloseL : List Char := ("</body>").toList

/-- Literal `"</html>"`. -/
def htmlCloseL : List Char := ("</html>").toList

/-- Negation of matching `'>'` (the `[^>]` class). -/
def notGt (c : Char) : Bool := !(c == '>')

/-- One attempt of `/return\s*\(\s*<html([^>]*)>\s*<body([^>]*)>/i` at the
head of `l`: `some (length, a, b)` with the two captures. -/
def matchNext1At (l : List Char) : Option (Nat × List Char × List Char) :=
  if ciStarts retL l then
    match (l.drop 6).dropWhile jsWs with
    | c1 :: l2 =>
      if c1 = '(' then
        let l3 := l2.dropWhile jsWs
        if ciStarts htmlOpenL l3 then
          let l4 := l3.drop 5
          let a := l4.takeWhile notGt
          match l4.dropWhile notGt with
          | g1 :: l5 =>
            if g1 = '>' then
              let l6 := l5.dropWhile jsWs
              if ciStarts bodyOpenL l6 then
                let l7 := l6.drop 5
                let b := l7.takeWhile notGt
                match l7.dropWhile notGt with
                | g2 :: _ =>
                  if g2 = '>' then
                    some (6 + ((l.drop 6).takeWhile jsWs).length + 1 +
                            (l2.takeWhile jsWs).length + 5 + a.length + 1 +
                            (l5.takeWhile jsWs).length + 5 + b.length + 1,
                          a, b)
                  else none
                | [] => none
              else none
            else none
          | [] => none
        else none
      else none
    | [] => none
  else none

/-- The replacement `return (<html${a}><body${b}><${providerName}>`. -/
def next1Repl (a b : List Char) : List Char :=
  ("return (<html").toList ++ a ++ ("><body").toList ++ b ++ ("><").toList ++ npL ++ ['>']

/-- First replace of the Next.js-layout fallback (cli.js lines 139-143). -/
def nextFallback1 (s : List Char) : List Char :=
  match findFrom matchNext1At s 0 with
  | none => s
  | some (p, (len, a, b)) => s.take p ++ next1Repl a b ++ s.drop (p + len)

/-- Tail test for `\s*;?\s*$` after the closing parenthesis: optional
whitespace, an optional semicolon, optional whitespace, end of input. -/
def endWsSemi (l : List Char) : Bool :=
  match l.dropWhile jsWs with
  | [] => true
  | c :: r => c == ';' && (r.dropWhile jsWs).isEmpty

/-- One attempt of `/<\/body>\s*<\/html>\s*\)\s*;?\s*$/i` at the head of `l`
(such a match always extends to the end of the string). -/
def matchNext2At (l : List Char) : Bool :=
  ciStarts bodyCloseL l &&
    (let l1 := (l.drop 7).dropWhile jsWs
     ciStarts htmlCloseL l1 &&
       (match (l1.drop 7).dropWhile jsWs with
        | c :: l3 => c == ')' && endWsSemi l3
        | [] => false))

/-- The replacement `</${providerName}></body></html>)`. -/
def next2Repl : List Char := ("</").toList ++ npL ++ ("></body></html>)").toList

/-- Second replace of the Next.js-layout fallback (cli.js lines 144-147):
the match runs to the end of the string, so the result is the prefix before
the leftmost match followed by the replacement. -/
def nextFallback2 (s : List Char) : List Char :=
  match findFrom (fun l => if matchNext2At l then some () else none) s 0 with
  | none => s
  | some (p, _) => s.take p ++ next2Repl

/-- The whole Next.js-layout fallback: both replaces in order. -/
def nextFallback (s : List Char) : List Char := nextFallback2 (nextFallback1 s)

/-- The three stack variants cli.js distinguishes. -/
inductive Stack
  | next
  | reactNative
  | react
deriving DecidableEq

/-- Literal `"export default function"`. -/
def edfL : List Char := ("export default function").toList

/-- `/export default function/i.test(code)`. -/
def exportDefaultFunctionTest (s : List Char) : Bool := s.tails.any (ciStarts edfL)

/-- Literal `"{ children }"` (braces escaped). -/
def childrenL : List Char := ("\x7b children \x7d").toList

/-- `code.includes("{ children }")`. -/
def containsChildren (s : List Char) : Bool := containsL s childrenL

/-- The wrap step plus fallbacks, cli.js lines 126-159: run `wrapJSXReturn`;
when it changed nothing, use the Next.js-layout fallback when
`stack === "next"`, `/export default function/i` matches and the code
contains `"{ children }"`, else the generic fallback when `/return\s*\(/`
matches, else leave the code alone. -/
def wrapPhase (stack : Stack) (code : List Char) : List Char :=
  let c2 := wrapJSXReturn code
  if c2 = code then
    if decide (stack = Stack.next) && exportDefaultFunctionTest code &&
        containsChildren code then
      nextFallback code
    else if returnParenTest code then genericFallback code
    else code
  else c2

/-- A `package.json` as far as cli.js reads it: keys of the two dependency
objects. `readJSONSafe` returning `null` (missing or invalid file) is the
`none` of `Option Manifest`. -/
structure Manifest where
  dependencies : List String
  devDependencies : List String

/-- Key set of `{...pkg.dependencies, ...pkg.devDependencies}` with the
`|| {}` defaults of cli.js lines 18-22. -/
def mergedDeps : Option Manifest → List String
  | none => []
  | some m => m.dependencies ++ m.devDependencies

/-- Literal `"next"`. -/
def nextS : String := "next"

/-- Literal `"react-native"`. -/
def reactNativeS : String := "react-native"

/-- Literal `"app.json"`. -/
def appJsonS : String := "app.json"

/-- Literal `"expo.json"`. -/
def expoJsonS : String := "expo.json"

/-- Literal `"expo.config.js"`. -/
def expoConfigS : String := "expo.config.js"

/-- Stack detection, cli.js lines 18-32: `next` when `"next" in deps`, else
`react-native` when `"react-native" in deps` or one of the marker files
exists, else `react`. `ex` is `fs.existsSync` on paths relative to `cwd`. -/
def detectStack (pkg : Option Manifest) (ex : String → Bool) : Stack :=
  let deps := mergedDeps pkg
  let isNext := deps.contains nextS
  let isRN := deps.contains reactNativeS || ex appJsonS || ex expoJsonS || ex expoConfigS
  if isNext then Stack.next else if isRN then Stack.reactNative else Stack.react

/-- The candidate root files of cli.js lines 36-56, in priority order. -/
def candidates : List String :=
  [ "app/layout.tsx", "app/layout.jsx", "src/app/layout.tsx", "src/app/layout.jsx",
    "app/_layout.tsx", "app/_layout.jsx",
    "App.tsx", "App.jsx", "src/App.tsx", "src/App.jsx", "App.js", "src/App.js",
    "index.tsx", "index.jsx", "src/index.tsx", "src/index.jsx" ]

/-- Root-file selection, cli.js lines 58-60: the first existing candidate. -/
def findRoot (ex : String → Bool) : Option String := candidates.find? ex

/-- Suffix test on character lists. -/
def endsL (l pat : List Char) : Bool :=
  decide (pat.length ≤ l.length) && l.drop (l.length - pat.length) == pat

/-- Literal `".tsx"`. -/
def tsxL : List Char := (".tsx").toList

/-- Literal `".ts"`. -/
def tsL : List Char := (".ts").toList

/-- Literal `".jsx"`. -/
def jsxL : List Char := (".jsx").toList

/-- Literal `".js"`. -/
def jsL : List Char := (".js").toList

/-- `/\.tsx?$/.test(rootPath)` of cli.js line 69. -/
def usesTSRoot (p : String) : Bool := endsL p.toList tsxL || endsL p.toList tsL

/-- The provider directory `src/nim-react-toastify` (relative to `cwd`). -/
def targetDirS : String := "src/nim-react-toastify"

/-- The provider file path with the `.tsx` extension. -/
def providerFileTsxS : String := "src/nim-react-toastify/NotificationsProvider.tsx"

/-- The provider file path with the `.jsx` extension. -/
def providerFileJsxS : String := "src/nim-react-toastify/NotificationsProvider.jsx"

/-- The provider target path of cli.js lines 76-79. -/
def providerFileFor (usesTS : Bool) : String :=
  if usesTS then providerFileTsxS else providerFileJsxS

/-- The native template path. -/
def rnTemplateS : String := "templates/provider.rn.tsx"

/-- The web template path. -/
def webTemplateS : String := "templates/provider.web.tsx"

/-- Template choice of cli.js lines 82-85. -/
def templateFor (st : Stack) : String :=
  if st = Stack.reactNative then rnTemplateS else webTemplateS

/-- Split a relative path at `'/'` separators. -/
def splitSlashAux : List Char → List Char → List (List Char)
  | [], acc => [acc.reverse]
  | c :: t, acc =>
    if c == '/' then acc.reverse :: splitSlashAux t [] else splitSlashAux t (c :: acc)

/-- Segments of a `'/'`-separated relative path. -/
def splitSlash (l : List Char) : List (List Char) := splitSlashAux l []

/-- Rejoin path segments with `'/'`. -/
def joinSlash : List (List Char) → List Char
  | [] => []
  | [x] => x
  | x :: y :: r => x ++ '/' :: joinSlash (y :: r)

/-- Node `path.relative` on already-relative, `..`-free segment lists under
one root: strip the common prefix, go up once per remaining source segment.
(The subsequent `.replace(/^\.\./, (m) => m)` of cli.js line 102 replaces a
leading `..` by itself and the `.replace(/\\/g, "/")` has nothing to do on
POSIX-joined segments; both are identities here.) -/
def pathRelative : List (List Char) → List (List Char) → List (List Char)
  | [], ts => ts
  | f :: fs, [] => (f :: fs).map fun _ => ("..").toList
  | f :: fs, t :: ts =>
    if f = t then pathRelative fs ts
    else ((f :: fs).map fun _ => ("..").toList) ++ t :: ts

/-- The two extension strips `.replace(/\.tsx?$/, "").replace(/\.jsx?$/, "")`
of cli.js lines 104-105. -/
def stripExt (l : List Char) : List Char :=
  let l1 :=
    if endsL l tsxL then l.take (l.length - 4)
    else if endsL l tsL then l.take (l.length - 3)
    else l
  if endsL l1 jsxL then l1.take (l1.length - 4)
  else if endsL l1 jsL then l1.take (l1.length - 3)
  else l1

/-- Literal start of the import line: `import { NotificationsProvider } from "`. -/
def importLinePre : List Char := ("import \x7b NotificationsProvider \x7d from \"").toList

/-- Literal `"\";"` closing the import line. -/
def importLineEnd : List Char := ("\";").toList

/-- The computed import line of cli.js lines 99-105 for a given root file and
provider file (both relative to `cwd`). -/
def importLineFor (rootRel providerFile : String) : List Char :=
  importLinePre ++
    stripExt (joinSlash (pathRelative (splitSlash rootRel.toList).dropLast
      (splitSlash providerFile.toList))) ++
    importLineEnd

/-- A recorded file-system effect of the run. -/
inductive FsEvent
  | mkdir (path : String)
  | write (path : String) (content : List Char)
deriving DecidableEq

/-- How the process ends: an explicit `process.exit`, an exception reaching
the top-level catch (which prints it and exits 1), or normal completion. -/
inductive Outcome
  | exited (code : Nat)
  | threw (msg : String)
  | finished
deriving DecidableEq

/-- The ambient file system and manifest the run reads: `pkg` is the
`readJSONSafe` result, `fsExists` is `existsSync`, `readFile`/`readTemplate`
are the fallible reads, `mkdirFails`/`writeFails` make the write operations
throw. -/
structure Env where
  pkg : Option Manifest
  fsExists : String → Bool
  readFile : String → Except String (List Char)
  readTemplate : String → Except String (List Char)
  mkdirFails : Bool
  writeFails : String → Bool

/-- Message carried by a failing `mkdirSync`. -/
def mkdirFailMsg : String := "mkdirSync failed"

/-- Message carried by a failing `writeFileSync`. -/
def writeFailMsg : String := "writeFileSync failed"

/-- Step 2 of the run (cli.js lines 96-162): read the root file, insert the
import, wrap, write the root file back. -/
def patchAndWrite (env : Env) (stack : Stack) (rootRel providerFile : String)
    (evs : List FsEvent) : List FsEvent × Outcome :=
  match env.readFile rootRel with
  | Except.error e => (evs, Outcome.threw e)
  | Except.ok code =>
    let code2 := wrapPhase stack (importStep code (importLineFor rootRel providerFile))
    if env.writeFails rootRel then (evs, Outcome.threw writeFailMsg)
    else (evs ++ [FsEvent.write rootRel code2], Outcome.finished)

/-- The whole `run` body of cli.js lines 14-173 over an environment: stack
detection (pure reads), root lookup with `process.exit(1)` when none exists,
`mkdirSync`, the template emit of lines 81-94, then the source patching.
Returned are the write effects performed (in order) and the outcome; a
throwing step contributes no effect. -/
def runBody (env : Env) : List FsEvent × Outcome :=
  let stack := detectStack env.pkg env.fsExists
  match findRoot env.fsExists with
  | none => ([], Outcome.exited 1)
  | some rootRel =>
    let providerFile := providerFileFor (usesTSRoot rootRel)
    if env.mkdirFails then ([], Outcome.threw mkdirFailMsg)
    else
      let ev0 : List FsEvent := [FsEvent.mkdir targetDirS]
      if env.fsExists providerFile then
        patchAndWrite env stack rootRel providerFile ev0
      else
        match env.readTemplate (templateFor stack) with
        | Except.error e => (ev0, Outcome.threw e)
        | Except.ok tpl =>
          if env.writeFails providerFile then (ev0, Outcome.threw writeFailMsg)
          else patchAndWrite env stack rootRel providerFile
            (ev0 ++ [FsEvent.write providerFile tpl])

/-- The process exit status: the top-level catch of cli.js lines 174-177
turns any exception into exit 1; normal completion exits 0. -/
def runCli (env : Env) : Nat :=
  match (runBody env).2 with
  | Outcome.exited n => n
  | Outcome.threw _ => 1
  | Outcome.finished => 0

/-- Concrete input for the C1 failing-input evaluation. -/
def c1InS : String := "return (<a/>);"

/-- What cli.js actually produces on `c1InS` (wrap starts after the `<`). -/
def c1OutS : String := "return (<<NotificationsProvider>a/></NotificationsProvider>);"

/-- What the claim describes on `c1InS` (wrap starting at the `<`). -/
def c1ClaimedS : String := "return (<NotificationsProvider><a/></NotificationsProvider>);"

/-- Concrete input for the C2 witness: the return-JSX already contains a
`NotificationsProvider` element. -/
def c2InS : String := "return (<a><NotificationsProvider></NotificationsProvider></a>);"

/-- Concrete input for the C3 counterexample: whitespace after `return (` and
no JSX, so the wrap step changes nothing and the generic fallback runs. -/
def c3InS : String := "return ( x);"

/-- Output the claim as stated would require on `c3InS` (opening tag
immediately after `return (`). -/
def c3ClaimedS : String := "return (<NotificationsProvider> x</NotificationsProvider>);"

/-- Concrete input for the C4 counterexample: the text of the only import
line recurs later inside a string literal. -/
def c4InS : String := "import X;\nconst s = \"import X;\";"

/-- Literal `"App.tsx"`. -/
def appTsxS : String := "App.tsx"

/-- Literal `"app/layout.tsx"` (the first candidate). -/
def appLayoutTsxS : String := "app/layout.tsx"

/-- Literal `"src/index.jsx"` (the last candidate). -/
def srcIndexJsxS : String := "src/index.jsx"

/-- Concrete input for the C9 witness: a `return (` with no JSX `<` after it
and no `");"` anywhere. -/
def c9InS : String := "return (x"

/-- Word characters for the `\b` boundary of the intended guard regex. -/
def isWordChar (c : Char) : Bool :=
  decide ('a' ≤ c ∧ c ≤ 'z') || decide ('A' ≤ c ∧ c ≤ 'Z') ||
  decide ('0' ≤ c ∧ c ≤ '9') || c == '_'

/-- One attempt of the intended guard `/<\s*NotificationsProvider\b/`: an
element named `NotificationsProvider` starts here. -/
def elementNPAt : List Char → Bool
  | [] => false
  | c :: t =>
    c == '<' &&
      (let t2 := t.dropWhile jsWs
       if t2.take 21 = npL then
         match t2.drop 21 with
         | [] => true
         | d :: _ => !isWordChar d
       else false)

/-- The extracted JSX contains an element named `NotificationsProvider`. -/
def containsElementNP (s : List Char) : Bool := s.tails.any elementNPAt

/-- The literal text `${Provider}` (dollar, brace, name, brace). -/
def dollarBraceL : List Char := ("$\x7bProvider\x7d").toList

/-- Occurrence of `pat` as a substring of `s` at index `q`. -/
def OccursAt (s pat : List Char) (q : Nat) : Prop := ∃ r, s.drop q = pat ++ r

/-- Rightmost occurrence of `pat` in `s` at index `q`. -/
def GreatestOcc (s pat : List Char) (q : Nat) : Prop :=
  OccursAt s pat q ∧ ∀ r, q < r → ¬ OccursAt s pat r

/-- Propositional form of a `/return\s*\(\s*<[^>]/` match at the head:
the canonical (greedy) decomposition. -/
def MatchP (l : List Char) (n : Nat) : Prop :=
  ∃ w1 w2 c r, (∀ a ∈ w1, jsWs a = true) ∧ (∀ a ∈ w2, jsWs a = true) ∧ c ≠ '>' ∧
    l = retL ++ w1 ++ '(' :: (w2 ++ '<' :: c :: r) ∧ n = 9 + w1.length + w2.length

/-- Propositional form of a `/return\s*\(\s*/` match at the head (the
condition on `r` makes the trailing whitespace run maximal, as the greedy
`\s*` takes it). -/
def GenMatchP (l : List Char) (n : Nat) : Prop :=
  ∃ w1 w2 r, (∀ a ∈ w1, jsWs a = true) ∧ (∀ a ∈ w2, jsWs a = true) ∧
    (∀ c t, r = c :: t → jsWs c = false) ∧
    l = retL ++ w1 ++ '(' :: (w2 ++ r) ∧ n = 7 + w1.length + w2.length

/-- Leftmost `/return\s*\(\s*/` match of the whole string, propositionally. -/
def GenLeast (code : List Char) (p n : Nat) : Prop :=
  GenMatchP (code.drop p) n ∧ ∀ j, j < p → ∀ m, ¬ GenMatchP (code.drop j) m

/-- Does this event write to `path`? (Used to state frame properties.) -/
def isWriteTo (path : String) : FsEvent → Bool
  | FsEvent.write q _ => q == path
  | FsEvent.mkdir _ => false

/-- Existence predicate for witnesses: only `App.tsx` exists. -/
def exA : String → Bool := fun s => s == appTsxS

/-- Existence predicate for witnesses: nothing exists. -/
def exNone : String → Bool := fun _ => false

/-- Witness template content. -/
def tplOkS : String := "TPL"

/-- Witness reader: every file reads as empty. -/
def readOkEmpty : String → Except String (List Char) := fun _ => Except.ok []

/-- Witness template reader: every template reads as `tplOkS`. -/
def readTplOk : String → Except String (List Char) := fun _ => Except.ok (tplOkS.toList)

/-- Witness environment with no root file at all. -/
def envNoRoot : Env :=
  { pkg := none, fsExists := exNone, readFile := readOkEmpty,
    readTemplate := readTplOk, mkdirFails := false, writeFails := fun _ => false }

/-- Witness environment with root `App.tsx` and no provider file yet. -/
def envC8 : Env :=
  { pkg := none, fsExists := exA, readFile := readOkEmpty,
    readTemplate := readTplOk, mkdirFails := false, writeFails := fun _ => false }

/-- The computed import line for root `App.tsx` (used by the C4 record). -/
def c4ILn : List Char := importLineFor appTsxS (providerFileFor true)

/-- Prefix test characterization. -/
theorem isPrefixL_iff (pat : List Char) : ∀ l, isPrefixL pat l = true ↔ ∃ r, l = pat ++ r := by
  induction pat with
  | nil => intro l; simp [isPrefixL]
  | cons a x ih =>
    intro l
    cases l with
    | nil => simp [isPrefixL]
    | cons b y =>
      simp only [isPrefixL, Bool.and_eq_true, beq_iff_eq, ih y, List.cons_append,
        List.cons.injEq]
      constructor
      · rintro ⟨rfl, r, rfl⟩; exact ⟨r, rfl, rfl⟩
      · rintro ⟨r, rfl, rfl⟩; exact ⟨rfl, r, rfl⟩

/-- Substring-test characterization by occurrence index. -/
theorem containsL_iff (pat : List Char) : ∀ s, containsL s pat = true ↔ ∃ i, OccursAt s pat i := by
  intro s
  induction s with
  | nil =>
    simp only [containsL, Bool.or_false, isPrefixL_iff, OccursAt, List.drop_nil]
    constructor
    · rintro ⟨r, h⟩; exact ⟨0, r, h⟩
    · rintro ⟨i, r, h⟩; exact ⟨r, h⟩
  | cons a t ih =>
    constructor
    · intro h
      rw [containsL] at h
      rcases Bool.or_eq_true_iff.mp h with h | h
      · exact ⟨0, (isPrefixL_iff pat _).mp h⟩
      · rcases ih.mp h with ⟨i, r, hr⟩
        exact ⟨i + 1, r, hr⟩
    · rintro ⟨i, r, hr⟩
      rw [containsL, Bool.or_eq_true_iff]
      cases i with
      | zero => exact Or.inl ((isPrefixL_iff pat _).mpr ⟨r, hr⟩)
      | succ j => exact Or.inr (ih.mpr ⟨j, r, hr⟩)

/-- Substring-absence characterization. -/
theorem containsL_false_iff (s pat : List Char) :
    containsL s pat = false ↔ ∀ i, ¬ OccursAt s pat i := by
  rw [← Bool.not_eq_true, containsL_iff]
  push_neg
  rfl

/-- A spliced-in copy of `pat` makes the substring test succeed. -/
theorem containsL_append_self (A pat B : List Char) :
    containsL (A ++ (pat ++ B)) pat = true :=
  (containsL_iff pat _).mpr ⟨A.length, B, by rw [List.drop_left]⟩

/-- A substring of the right part is a substring of the whole. -/
theorem containsL_of_right (A B pat : List Char) (h : containsL B pat = true) :
    containsL (A ++ B) pat = true := by
  rcases (containsL_iff pat B).mp h with ⟨i, r, hr⟩
  exact (containsL_iff pat _).mpr ⟨A.length + i, r, by rw [List.drop_append]; exact hr⟩

/-- The empty pattern is a substring of anything. -/
theorem containsL_nil (s : List Char) : containsL s [] = true := by
  cases s <;> simp [containsL, isPrefixL]

/-- A substring of the left part is a substring of the whole. -/
theorem containsL_of_left (A B pat : List Char) (h : containsL A pat = true) :
    containsL (A ++ B) pat = true := by
  rcases (containsL_iff pat A).mp h with ⟨i, r, hr⟩
  rcases Nat.le_total i A.length with hi | hi
  · exact (containsL_iff pat _).mpr
      ⟨i, r ++ B, by rw [List.drop_append_of_le_length hi, hr, List.append_assoc]⟩
  · have hnil : A.drop i = [] := List.drop_eq_nil_of_le hi
    rw [hnil] at hr
    have hpat : pat = [] := by
      cases pat with
      | nil => rfl
      | cons c cs => exact absurd hr.symm (by simp)
    rw [hpat]
    exact containsL_nil _

/-- Dropping past an appended prefix. -/
theorem drop_append_ge (a b : List Char) (i : Nat) (h : a.length ≤ i) :
    (a ++ b).drop i = b.drop (i - a.length) := by
  conv_lhs => rw [show i = a.length + (i - a.length) by omega]
  rw [List.drop_append]

/-- Splicing in a segment `ins` that shares no character with `pat` cannot
create a new occurrence of `pat`. -/
theorem contains_splice (A ins B pat : List Char) (h : ∀ c ∈ pat, c ∉ ins)
    (hc : containsL (A ++ ins ++ B) pat = true) : containsL (A ++ B) pat = true := by
  cases pat with
  | nil => exact containsL_nil _
  | cons p0 ps =>
    by_cases hins : ins = []
    · subst hins
      simpa using hc
    have hinspos : 0 < ins.length := List.length_pos.mpr hins
    rcases (containsL_iff _ _).mp hc with ⟨i, r, hr⟩
    by_cases hge : A.length + ins.length ≤ i
    · -- the occurrence lies in B
      have hB : (A ++ ins ++ B).drop i = B.drop (i - (A.length + ins.length)) := by
        rw [drop_append_ge _ _ _ (by simp [List.length_append]; omega)]
        congr 1
        simp [List.length_append]
      exact containsL_of_right _ _ _ ((containsL_iff _ _).mpr ⟨_, r, hB ▸ hr⟩)
    · push_neg at hge
      by_cases hin : i + (p0 :: ps).length ≤ A.length
      · -- the occurrence lies in A
        have hiA : i ≤ A.length := le_trans (Nat.le_add_right _ _) hin
        have h1 : (A ++ ins ++ B).drop i = A.drop i ++ (ins ++ B) := by
          rw [List.append_assoc, List.drop_append_of_le_length hiA]
        rw [h1] at hr
        have hlen : (p0 :: ps).length ≤ (A.drop i).length := by
          rw [List.length_drop]; omega
        have htk : List.take (p0 :: ps).length (A.drop i) = p0 :: ps := by
          have := congrArg (List.take (p0 :: ps).length) hr
          rw [List.take_append_of_le_length hlen, List.take_left] at this
          exact this
        have h2 : A.drop i = (p0 :: ps) ++ (A.drop i).drop (p0 :: ps).length := by
          conv_lhs => rw [← List.take_append_drop (p0 :: ps).length (A.drop i)]
          rw [htk]
        exact containsL_of_left _ _ _ ((containsL_iff _ _).mpr ⟨i, _, h2⟩)
      · -- the occurrence would overlap ins: impossible
        exfalso
        push_neg at hin
        set k := A.length - i with hk
        have hkp : k < (p0 :: ps).length := by
          simp only [List.length_cons] at hin ⊢
          omega
        have hdrop1 : ((p0 :: ps) ++ r).drop k = (p0 :: ps).drop k ++ r :=
          List.drop_append_of_le_length (le_of_lt hkp)
        have hdrop2 : (A ++ ins ++ B).drop (i + k) =
            ins.drop (i + k - A.length) ++ B := by
          rw [List.append_assoc, drop_append_ge _ _ _ (by omega),
            List.drop_append_of_le_length (by simp [List.length_cons] at hin; omega)]
        have hstep : (p0 :: ps).drop k ++ r = ins.drop (i + k - A.length) ++ B := by
          rw [← hdrop1, ← hr, List.drop_drop, hdrop2]
        have hne1 : (p0 :: ps).drop k ≠ [] := by
          rw [ne_eq, List.drop_eq_nil_iff_le]
          omega
        have hne2 : ins.drop (i + k - A.length) ≠ [] := by
          rw [ne_eq, List.drop_eq_nil_iff_le]
          push_neg
          omega
        rcases List.exists_cons_of_ne_nil hne1 with ⟨c, cs, hc1⟩
        rcases List.exists_cons_of_ne_nil hne2 with ⟨d, ds, hc2⟩
        rw [hc1, hc2] at hstep
        have hcd : c = d := by
          have := congrArg List.head? hstep
          simpa using this
        have hcmem : c ∈ p0 :: ps := List.drop_subset _ _ (hc1 ▸ List.mem_cons_self c cs)
        have hdmem : d ∈ ins := List.drop_subset _ _ (hc2 ▸ List.mem_cons_self d ds)
        exact h c hcmem (hcd ▸ hdmem)

/-- Splicing the opening tag in cannot create an occurrence of the closing
tag: the only `'<'` of `openNP` is at offset 0, where `closeNP` and `openNP`
differ at the next character. -/
theorem close_splice (A B : List Char) (h : containsL (A ++ B) closeNP = false) :
    containsL (A ++ openNP ++ B) closeNP = false := by
  by_contra hcon
  rw [← ne_eq, Bool.ne_false_iff] at hcon
  rw [← Bool.not_eq_true, containsL_iff] at h
  push_neg at h
  rcases (containsL_iff _ _).mp hcon with ⟨i, r, hr⟩
  have hAo : (A ++ openNP).length = A.length + 23 := by
    simp [List.length_append, openNP, npL]
  by_cases h1 : A.length + 23 ≤ i
  · -- occurrence in B
    refine h (A.length + (i - (A.length + 23))) ⟨r, ?_⟩
    rw [List.drop_append]
    rw [show A ++ openNP ++ B = (A ++ openNP) ++ B from rfl, drop_append_ge] at hr
    · rw [hAo] at hr; exact hr
    · omega
  · push_neg at h1
    by_cases h2 : i + 24 ≤ A.length
    · -- occurrence in A
      refine h i ⟨(A.drop i).drop 24 ++ B, ?_⟩
      have hiA : i ≤ A.length := by omega
      rw [List.drop_append_of_le_length hiA]
      have hr' : A.drop i ++ (openNP ++ B) = closeNP ++ r := by
        rw [← List.drop_append_of_le_length hiA, ← List.append_assoc]
        exact hr
      have hlen : (24 : Nat) ≤ (A.drop i).length := by rw [List.length_drop]; omega
      have hlc : closeNP.length = 24 := by simp [closeNP, npL]
      have htk : (A.drop i).take 24 = closeNP := by
        have := congrArg (List.take 24) hr'
        rw [List.take_append_of_le_length hlen, ← hlc, List.take_left] at this
        exact this
      conv_lhs => rw [← List.take_append_drop 24 (A.drop i), htk]
      rw [List.append_assoc]
    · push_neg at h2
      by_cases h3 : A.length ≤ i
      · -- the occurrence starts inside the spliced opening tag
        set m := i - A.length with hm
        have hmlt : m < 23 := by omega
        have hdec : (A ++ openNP ++ B).drop i = openNP.drop m ++ B := by
          rw [List.append_assoc, drop_append_ge _ _ _ h3,
            List.drop_append_of_le_length (by simp [openNP, npL]; omega)]
        rw [hdec] at hr
        rcases Nat.eq_zero_or_pos m with hm0 | hmpos
        · rw [hm0, List.drop_zero] at hr
          have h5 := congrArg (List.take 2) hr
          rw [List.take_append_of_le_length (by decide),
            List.take_append_of_le_length (by decide)] at h5
          revert h5
          decide
        · have hlo : openNP.length = 23 := by decide
          have hne : openNP.drop m ≠ [] := by
            rw [ne_eq, List.drop_eq_nil_iff_le, hlo]
            omega
          rcases List.exists_cons_of_ne_nil hne with ⟨x, xs, hx⟩
          rw [hx] at hr
          have hx1 : x = '<' := by
            have hh := congrArg List.head? hr
            simp only [List.cons_append, List.head?_cons, closeNP,
              Option.some.injEq] at hh
            first
            | exact hh
            | exact hh.symm
          have hdf : ∀ mm, mm < 23 → 1 ≤ mm → (openNP.drop mm).head? ≠ some '<' := by
            decide
          exact hdf m hmlt hmpos (by rw [hx, hx1]; rfl)
      · -- the occurrence starts in A and reaches into the opening tag
        push_neg at h3
        set k := A.length - i with hk
        have hk1 : 1 ≤ k := by omega
        have hk23 : k ≤ 23 := by omega
        have hlc : closeNP.length = 24 := by decide
        have hdec : (A ++ openNP ++ B).drop i = A.drop i ++ (openNP ++ B) := by
          rw [List.append_assoc]
          exact List.drop_append_of_le_length (by omega)
        rw [hdec] at hr
        have hlen : (A.drop i).length = k := by rw [List.length_drop]
        have h4 := congrArg (List.drop (A.drop i).length) hr
        rw [List.drop_left] at h4
        rw [hlen, List.drop_append_of_le_length (by omega)] at h4
        have hne : closeNP.drop k ≠ [] := by
          rw [ne_eq, List.drop_eq_nil_iff_le, hlc]
          omega
        rcases List.exists_cons_of_ne_nil hne with ⟨x, xs, hx⟩
        rw [hx] at h4
        have hx1 : x = '<' := by
          have hh := congrArg List.head? h4
          simp only [List.cons_append, List.head?_cons, openNP,
            Option.some.injEq] at hh
          first
          | exact hh
          | exact hh.symm
        have hdf : ∀ kk, kk < 24 → 1 ≤ kk → (closeNP.drop kk).head? ≠ some '<' := by
          decide
        exact hdf k (by omega) hk1 (by rw [hx, hx1]; rfl)

/-- One attempt of the buggy guard regex never succeeds: after the `$` anchor
the literal `{Provider}` has no input left to match. -/
theorem guardAt_false (l : List Char) : guardAt l = false := by
  cases l with
  | nil => rfl
  | cons c t =>
    have : isPrefixL braceProviderL [] = false := by decide
    simp [guardAt, this]

/-- The duplicate-wrap guard of cli.js line 231 matches no string at all. -/
theorem guardMatch_false (l : List Char) : guardMatch l = false := by
  rw [guardMatch, ← Bool.not_eq_true, List.any_eq_true]
  rintro ⟨t, -, ht⟩
  rw [guardAt_false] at ht
  exact Bool.false_ne_true ht

/-- Canonical `takeWhile`/`dropWhile` split at the first failing element. -/
theorem while_canon (p : Char → Bool) (w : List Char) (x : Char) (r : List Char)
    (hw : ∀ a ∈ w, p a = true) (hx : p x = false) :
    (w ++ x :: r).takeWhile p = w ∧ (w ++ x :: r).dropWhile p = x :: r := by
  induction w with
  | nil => simp [List.takeWhile_cons, List.dropWhile_cons, hx]
  | cons a w' ih =>
    have ha : p a = true := hw a (List.mem_cons_self a w')
    have ih' := ih fun b hb => hw b (List.mem_cons_of_mem a hb)
    simp [List.takeWhile_cons, List.dropWhile_cons, ha, ih'.1, ih'.2]

/-- Executable-to-propositional direction for the wrap regex matcher. -/
theorem matchReturnAt_some (l : List Char) (n : Nat) (h : matchReturnAt l = some n) :
    MatchP l n := by
  by_cases h6 : l.take 6 = retL
  case neg => rw [matchReturnAt, if_neg h6] at h; cases h
  rw [matchReturnAt, if_pos h6] at h
  cases hdw : (l.drop 6).dropWhile jsWs with
  | nil => rw [hdw] at h; cases h
  | cons c1 l2 =>
    rw [hdw] at h
    dsimp only at h
    by_cases hc1 : c1 = '('
    case neg => rw [if_neg hc1] at h; cases h
    rw [if_pos hc1] at h
    cases hdw2 : l2.dropWhile jsWs with
    | nil => rw [hdw2] at h; cases h
    | cons c2 rest2 =>
      rw [hdw2] at h
      cases rest2 with
      | nil => cases h
      | cons c rest =>
        dsimp only at h
        by_cases hc2 : c2 = '<'
        case neg => rw [if_neg hc2] at h; cases h
        rw [if_pos hc2] at h
        by_cases hgt : c = '>'
        case pos => rw [if_pos hgt] at h; cases h
        rw [if_neg hgt] at h
        injection h with hn
        subst hc1
        subst hc2
        refine ⟨(l.drop 6).takeWhile jsWs, l2.takeWhile jsWs, c, rest,
          fun a ha => List.mem_takeWhile_imp ha,
          fun a ha => List.mem_takeWhile_imp ha, hgt, ?_, by omega⟩
        have h1 : l = retL ++ l.drop 6 := by
          conv_lhs => rw [← List.take_append_drop 6 l]
          rw [h6]
        have h2 : l.drop 6 = (l.drop 6).takeWhile jsWs ++ '(' :: l2 := by
          conv_lhs => rw [← List.takeWhile_append_dropWhile jsWs (l.drop 6)]
          rw [hdw]
        have h3 : l2 = l2.takeWhile jsWs ++ '<' :: c :: rest := by
          conv_lhs => rw [← List.takeWhile_append_dropWhile jsWs l2]
          rw [hdw2]
        conv_lhs => rw [h1, h2, h3]
        rw [List.append_assoc]

/-- Propositional-to-executable direction for the wrap regex matcher. -/
theorem matchReturnAt_of (l : List Char) (n : Nat) (h : MatchP l n) :
    matchReturnAt l = some n := by
  rcases h with ⟨w1, w2, c, r, hw1, hw2, hc, rfl, rfl⟩
  have hretlen : retL.length = 6 := by decide
  have h6 : (retL ++ (w1 ++ '(' :: (w2 ++ '<' :: c :: r))).take 6 = retL := by
    rw [← hretlen, List.take_left]
  have hd6 : (retL ++ (w1 ++ '(' :: (w2 ++ '<' :: c :: r))).drop 6 =
      w1 ++ '(' :: (w2 ++ '<' :: c :: r) := by
    rw [← hretlen, List.drop_left]
  have hcanon1 := while_canon jsWs w1 '(' (w2 ++ '<' :: c :: r) hw1 (by decide)
  have hcanon2 := while_canon jsWs w2 '<' (c :: r) hw2 (by decide)
  rw [matchReturnAt, List.append_assoc, if_pos h6, hd6, hcanon1.1, hcanon1.2]
  dsimp only
  rw [if_pos rfl, hcanon2.1, hcanon2.2]
  dsimp only
  rw [if_pos rfl, if_neg hc]

/-- A successful leftmost search yields a match at the reported offset and
no match at any earlier offset. -/
theorem findFrom_some {α : Type} (f : List Char → Option α) :
    ∀ (l : List Char) (i p : Nat) (a : α), findFrom f l i = some (p, a) →
      ∃ k, p = i + k ∧ f (l.drop k) = some a ∧ ∀ j, j < k → f (l.drop j) = none := by
  intro l
  induction l with
  | nil =>
    intro i p a h
    rw [findFrom] at h
    cases hf : f [] with
    | none => rw [hf] at h; cases h
    | some b =>
      rw [hf] at h
      injection h with h'
      injection h' with h1 h2
      exact ⟨0, h1.symm, by rw [List.drop_nil, hf, h2], by omega⟩
  | cons x t ih =>
    intro i p a h
    rw [findFrom] at h
    cases hf : f (x :: t) with
    | some b =>
      rw [hf] at h
      injection h with h'
      injection h' with h1 h2
      exact ⟨0, h1.symm, by rw [List.drop_zero, hf, h2], by omega⟩
    | none =>
      rw [hf] at h
      rcases ih (i + 1) p a h with ⟨k, hp, hm, hnone⟩
      refine ⟨k + 1, by omega, by simpa using hm, ?_⟩
      intro j hj
      cases j with
      | zero => simpa using hf
      | succ j' => simpa using hnone j' (by omega)

/-- A match at offset `k` with none earlier is what the leftmost search
finds. -/
theorem findFrom_of {α : Type} (f : List Char → Option α) :
    ∀ (l : List Char) (i k : Nat) (a : α), f (l.drop k) = some a →
      (∀ j, j < k → f (l.drop j) = none) → findFrom f l i = some (i + k, a) := by
  intro l
  induction l with
  | nil =>
    intro i k a hm hnone
    rw [List.drop_nil] at hm
    cases k with
    | zero =>
      rw [findFrom, hm]
      dsimp only
      rw [Nat.add_zero]
    | succ k' =>
      have := hnone 0 (by omega)
      rw [List.drop_nil] at this
      rw [this] at hm
      cases hm
  | cons x t ih =>
    intro i k a hm hnone
    cases k with
    | zero =>
      rw [List.drop_zero] at hm
      rw [findFrom, hm]
      dsimp only
      rw [Nat.add_zero]
    | succ k' =>
      have h0 := hnone 0 (by omega)
      rw [List.drop_zero] at h0
      rw [findFrom, h0]
      dsimp only
      have hstep := ih (i + 1) k' a (by simpa using hm)
        (fun j hj => by simpa using hnone (j + 1) (by omega))
      rw [hstep]
      have harith : i + 1 + k' = i + (k' + 1) := by omega
      rw [harith]

/-- Walking a stretch with a known final depth composes with the scan. -/
theorem parenScan_append (l1 : List Char) :
    ∀ (l2 : List Char) (i d d' : Nat), scanPrefixDepth l1 d = some d' →
      parenScan (l1 ++ l2) i d = parenScan l2 (i + l1.length) d' := by
  induction l1 with
  | nil =>
    intro l2 i d d' h
    rw [scanPrefixDepth] at h
    injection h with h'
    subst h'
    simp
  | cons c t ih =>
    intro l2 i d d' h
    rw [scanPrefixDepth] at h
    rw [List.cons_append, parenScan]
    by_cases hc : c == '('
    · rw [if_pos hc] at h ⊢
      rw [ih l2 (i + 1) (d + 1) d' h]
      congr 1
      simp [List.length_cons]
      omega
    · rw [if_neg hc] at h ⊢
      by_cases hc2 : c == ')'
      · rw [if_pos hc2] at h ⊢
        by_cases hd : d = 0
        · rw [if_pos hd] at h; cases h
        · rw [if_neg hd] at h ⊢
          rw [ih l2 (i + 1) (d - 1) d' h]
          congr 1
          simp [List.length_cons]
          omega
      · rw [if_neg hc2] at h ⊢
        rw [ih l2 (i + 1) d d' h]
        congr 1
        simp [List.length_cons]
        omega

/-- Decomposition of a successful depth scan: the traversed prefix comes back
to depth 0 and the stop index carries a `')'`. -/
theorem parenScan_some (l : List Char) :
    ∀ (i d e : Nat), parenScan l i d = some e →
      ∃ k rest, e = i + k ∧ l.drop k = ')' :: rest ∧
        scanPrefixDepth (l.take k) d = some 0 := by
  induction l with
  | nil => intro i d e h; rw [parenScan] at h; cases h
  | cons c t ih =>
    intro i d e h
    rw [parenScan] at h
    by_cases hc : c == '('
    · rw [if_pos hc] at h
      rcases ih (i + 1) (d + 1) e h with ⟨k, rest, he, hdrop, hsp⟩
      exact ⟨k + 1, rest, by omega, by simpa using hdrop,
        by rw [List.take_succ_cons, scanPrefixDepth, if_pos hc]; exact hsp⟩
    · rw [if_neg hc] at h
      by_cases hc2 : c == ')'
      · rw [if_pos hc2] at h
        by_cases hd : d = 0
        · rw [if_pos hd] at h
          injection h with h'
          refine ⟨0, t, by omega, ?_, ?_⟩
          · rw [List.drop_zero]
            have hcq : c = ')' := by simpa using hc2
            rw [hcq]
          · rw [List.take_zero, scanPrefixDepth, hd]
        · rw [if_neg hd] at h
          rcases ih (i + 1) (d - 1) e h with ⟨k, rest, he, hdrop, hsp⟩
          exact ⟨k + 1, rest, by omega, by simpa using hdrop,
            by rw [List.take_succ_cons, scanPrefixDepth, if_neg hc, if_pos hc2,
              if_neg hd]; exact hsp⟩
      · rw [if_neg hc2] at h
        rcases ih (i + 1) d e h with ⟨k, rest, he, hdrop, hsp⟩
        exact ⟨k + 1, rest, by omega, by simpa using hdrop,
          by rw [List.take_succ_cons, scanPrefixDepth, if_neg hc, if_neg hc2]; exact hsp⟩


set_option maxHeartbeats 1000000

/-- Computation rule for a successful wrap: with the first match and the
closing parenthesis in hand (and the guard dead), the output is the splice. -/
theorem wrapJSXReturn_eq (code : List Char) (idx len e : Nat)
    (hm : findFrom matchReturnAt code 0 = some (idx, len))
    (hs : parenScan (code.drop (idx + len - 1)) (idx + len - 1) 0 = some e) :
    wrapJSXReturn code =
      code.take (idx + len - 1) ++
        wrapNP ((code.drop (idx + len - 1)).take (e - (idx + len - 1))) ++ code.drop e := by
  rw [wrapJSXReturn, hm]
  dsimp only
  rw [hs]
  dsimp only
  rw [guardMatch_false]
  simp only [Bool.false_eq_true, if_false]

/-- Applying the wrapper to an already-wrapped output wraps again: the first
match of the output sits at the same index (the `[^>]` character becoming the
`'<'` of the inserted opening tag), the depth scan passes over the balanced
inserted tags, and the guard still never fires. -/
theorem wrapJSXReturn_twice (code : List Char) (idx len e : Nat)
    (hm : findFrom matchReturnAt code 0 = some (idx, len))
    (hs : parenScan (code.drop (idx + len - 1)) (idx + len - 1) 0 = some e) :
    wrapJSXReturn (wrapJSXReturn code) =
      code.take (idx + len - 1) ++
        wrapNP (wrapNP ((code.drop (idx + len - 1)).take (e - (idx + len - 1)))) ++
        code.drop e := by
  obtain ⟨k0, hk0, hmat, hnone⟩ := findFrom_some matchReturnAt code 0 idx len hm
  rw [show k0 = idx from by omega] at hmat hnone
  obtain ⟨w1, w2, c, r, hw1, hw2, hcgt, hD, hlen⟩ := matchReturnAt_some _ _ hmat
  have hrl : retL.length = 6 := by decide
  set A : List Char := retL ++ w1 ++ '(' :: w2 with hA
  have hAlen : A.length = 7 + w1.length + w2.length := by
    simp only [hA, List.length_append, List.length_cons, hrl]
    omega
  have hD2 : code.drop idx = A ++ '<' :: c :: r := by
    rw [hD, hA]
    simp [List.append_assoc, List.cons_append]
  have hs0 : idx + len - 1 = idx + (A.length + 1) := by omega
  have hdlen := congrArg List.length hD2
  rw [List.length_drop] at hdlen
  simp only [List.length_append, List.length_cons] at hdlen
  have hclen : code.length = idx + A.length + 2 + r.length := by omega
  have htklen : (code.take idx).length = idx := by
    rw [List.length_take]
    omega
  have hcode : code = code.take idx ++ (A ++ '<' :: c :: r) := by
    conv_lhs => rw [← List.take_append_drop idx code, hD2]
  have hbefore : code.take (idx + len - 1) = code.take idx ++ (A ++ ['<']) := by
    rw [hs0, List.take_add, hD2, List.take_append]
    simp
  have hdd : (code.drop idx).drop (A.length + 1) = code.drop (idx + (A.length + 1)) := by
    rw [List.drop_drop]
  have hdrop_s0 : code.drop (idx + len - 1) = c :: r := by
    rw [hs0, ← hdd, hD2, List.drop_append]
    simp
  obtain ⟨k, rest, he, hdropk, hsp⟩ := parenScan_some _ _ _ _ hs
  have hek : e - (idx + len - 1) = k := by omega
  have hdropslen := congrArg List.length hdropk
  simp only [List.length_drop, List.length_cons] at hdropslen
  have hklt : k < (code.drop (idx + len - 1)).length := by
    rw [List.length_drop]
    omega
  set inside : List Char := (code.drop (idx + len - 1)).take k with hinside
  have hinlen : inside.length = k := by
    rw [hinside, List.length_take]
    omega
  have hdd2 : (code.drop (idx + len - 1)).drop k = code.drop (idx + len - 1 + k) := by
    rw [List.drop_drop]
  have hdrop_e : code.drop e = ')' :: rest := by
    rw [he, ← hdd2]
    exact hdropk
  have hout : wrapJSXReturn code =
      code.take (idx + len - 1) ++ wrapNP inside ++ code.drop e := by
    rw [wrapJSXReturn_eq code idx len e hm hs, hek]
  set out : List Char := code.take (idx + len - 1) ++ wrapNP inside ++ code.drop e
    with hoview
  have hs0le : idx + len - 1 ≤ code.length := by omega
  have hbeflen : (code.take (idx + len - 1)).length = idx + len - 1 := by
    rw [List.length_take]
    omega
  have houtA : out = code.take idx ++ ((A ++ ['<']) ++ (wrapNP inside ++ ')' :: rest)) := by
    rw [hoview, hbefore, hdrop_e]
    simp [List.append_assoc]
  have houtdropidx : out.drop idx =
      retL ++ w1 ++ '(' :: (w2 ++ '<' :: '<' ::
        (npL ++ '>' :: (inside ++ (closeNP ++ ')' :: rest)))) := by
    rw [houtA, List.drop_left' htklen]
    rw [hA]
    simp [wrapNP, openNP, List.append_assoc, List.cons_append]
  have hltA : '<' ∉ A := by
    rw [hA]
    intro hmem
    rcases List.mem_append.mp hmem with hmem | hmem
    · rcases List.mem_append.mp hmem with hmem | hmem
      · revert hmem
        decide
      · exact absurd (hw1 _ hmem) (by decide)
    · rcases List.mem_cons.mp hmem with hmem | hmem
      · exact absurd hmem (by decide)
      · exact absurd (hw2 _ hmem) (by decide)
  have hnone2 : ∀ j, j < idx → matchReturnAt (out.drop j) = none := by
    intro j hj
    cases hLm : matchReturnAt (out.drop j) with
    | none => rfl
    | some L =>
      exfalso
      obtain ⟨u1, u2, d, q, hu1, hu2, hdgt, hEq, hLval⟩ := matchReturnAt_some _ _ hLm
      set PM : List Char := retL ++ u1 ++ '(' :: u2 with hPM
      have hPMlen : PM.length = 7 + u1.length + u2.length := by
        simp only [hPM, List.length_append, List.length_cons, hrl]
        omega
      have hEq2 : out.drop j = PM ++ '<' :: d :: q := by
        rw [hEq, hPM]
        simp [List.append_assoc, List.cons_append]
      have hltPM : '<' ∉ PM := by
        rw [hPM]
        intro hmem
        rcases List.mem_append.mp hmem with hmem | hmem
        · rcases List.mem_append.mp hmem with hmem | hmem
          · revert hmem
            decide
          · exact absurd (hu1 _ hmem) (by decide)
        · rcases List.mem_cons.mp hmem with hmem | hmem
          · exact absurd hmem (by decide)
          · exact absurd (hu2 _ hmem) (by decide)
      have hjle : j ≤ idx := le_of_lt hj
      set Bj : List Char := (code.take idx).drop j with hBj
      have hBjlen : Bj.length = idx - j := by
        rw [hBj, List.length_drop, htklen]
      have hcodedropj : code.drop j = (Bj ++ A) ++ '<' :: c :: r := by
        conv_lhs => rw [hcode]
        rw [List.drop_append_of_le_length (by rw [htklen]; exact hjle), hBj]
        simp [List.append_assoc]
      have houtdropj : out.drop j = (Bj ++ A) ++ '<' :: '<' ::
          (npL ++ '>' :: (inside ++ (closeNP ++ ')' :: rest))) := by
        rw [houtA, List.drop_append_of_le_length (by rw [htklen]; exact hjle), hBj]
        rw [hA]
        simp [wrapNP, openNP, List.append_assoc, List.cons_append]
      set Aj : List Char := Bj ++ A with hAj
      have hAjlen : Aj.length = idx - j + (7 + w1.length + w2.length) := by
        rw [hAj, List.length_append, hBjlen, hAlen]
      have hKey : Aj ++ '<' :: '<' :: (npL ++ '>' :: (inside ++ (closeNP ++ ')' :: rest)))
          = PM ++ '<' :: d :: q := by
        rw [← houtdropj, hEq2]
      rcases Nat.lt_or_ge PM.length Aj.length with hlt | hge
      · have htake : Aj.take PM.length = PM := by
          have h1 := congrArg (List.take PM.length) hKey
          rw [List.take_append_of_le_length (le_of_lt hlt), List.take_left] at h1
          exact h1
        have hdropPM := congrArg (List.drop PM.length) hKey
        rw [List.drop_append_of_le_length (le_of_lt hlt), List.drop_left] at hdropPM
        have hne : Aj.drop PM.length ≠ [] := by
          rw [ne_eq, List.drop_eq_nil_iff_le]
          omega
        rcases List.exists_cons_of_ne_nil hne with ⟨y, ys, hy⟩
        rw [hy] at hdropPM
        simp only [List.cons_append] at hdropPM
        have hy1 : y = '<' := (List.cons.injEq _ _ _ _).mp hdropPM |>.1
        have hcodePM : code.drop j = PM ++ '<' :: (ys ++ '<' :: c :: r) := by
          rw [hcodedropj]
          conv_lhs =>
            rw [show Aj = Aj.take PM.length ++ Aj.drop PM.length from
              (List.take_append_drop _ _).symm, htake, hy, hy1]
          simp [List.append_assoc]
        cases ys with
        | nil =>
          have hMP : MatchP (code.drop j) (9 + u1.length + u2.length) :=
            ⟨u1, u2, '<', c :: r, hu1, hu2, by decide,
              by rw [hcodePM, hPM]; simp [List.append_assoc, List.cons_append], rfl⟩
          exact absurd (matchReturnAt_of _ _ hMP) (by rw [hnone j hj]; simp)
        | cons y2 ys' =>
          have htail := (List.cons.injEq _ _ _ _).mp hdropPM |>.2
          simp only [List.cons_append] at htail
          have hd2 : d = y2 := ((List.cons.injEq _ _ _ _).mp htail).1.symm
          have hMP : MatchP (code.drop j) (9 + u1.length + u2.length) :=
            ⟨u1, u2, y2, ys' ++ '<' :: c :: r, hu1, hu2, by rw [← hd2]; exact hdgt,
              by rw [hcodePM, hPM]; simp [List.append_assoc, List.cons_append], rfl⟩
          exact absurd (matchReturnAt_of _ _ hMP) (by rw [hnone j hj]; simp)
      · rcases Nat.eq_or_lt_of_le hge with heq | hgt
        · obtain ⟨hAPM, htail⟩ := List.append_inj hKey heq
          have hMP : MatchP (code.drop j) (9 + u1.length + u2.length) :=
            ⟨u1, u2, c, r, hu1, hu2, hcgt,
              by rw [hcodedropj, hAPM, hPM]; simp [List.append_assoc, List.cons_append],
              rfl⟩
          exact absurd (matchReturnAt_of _ _ hMP) (by rw [hnone j hj]; simp)
        · have htakeA : PM.take Aj.length = Aj := by
            have h1 := congrArg (List.take Aj.length) hKey
            rw [List.take_left, List.take_append_of_le_length (le_of_lt hgt)] at h1
            exact h1.symm
          have hPMsplit : PM = Aj ++ PM.drop Aj.length := by
            conv_lhs => rw [← List.take_append_drop Aj.length PM, htakeA]
          have hZne : PM.drop Aj.length ≠ [] := by
            rw [ne_eq, List.drop_eq_nil_iff_le]
            omega
          rcases List.exists_cons_of_ne_nil hZne with ⟨z, zs, hz⟩
          have hKey2 : '<' :: '<' :: (npL ++ '>' :: (inside ++ (closeNP ++ ')' :: rest)))
              = (z :: zs) ++ '<' :: d :: q := by
            have hK := hKey
            rw [hPMsplit, hz] at hK
            have hassoc : (Aj ++ (z :: zs)) ++ '<' :: d :: q =
                Aj ++ ((z :: zs) ++ '<' :: d :: q) := List.append_assoc _ _ _
            rw [hassoc] at hK
            exact List.append_cancel_left hK
          have hz1 : z = '<' := by
            simp only [List.cons_append] at hKey2
            exact ((List.cons.injEq _ _ _ _).mp hKey2).1.symm
          apply hltPM
          rw [hPMsplit, hz, hz1]
          exact List.mem_append.mpr (Or.inr (List.mem_cons_self _ _))
  have hmP : MatchP (out.drop idx) len :=
    ⟨w1, w2, '<', npL ++ '>' :: (inside ++ (closeNP ++ ')' :: rest)), hw1, hw2,
      by decide, houtdropidx, hlen⟩
  have hm2 : findFrom matchReturnAt out 0 = some (idx, len) := by
    have h0 := findFrom_of matchReturnAt out 0 idx len (matchReturnAt_of _ _ hmP) hnone2
    simpa using h0
  have ho23 : openNP.length = 23 := by decide
  have hc24 : closeNP.length = 24 := by decide
  have houtdrop1 : out.drop (idx + len - 1) = wrapNP inside ++ ')' :: rest := by
    rw [hoview, hdrop_e, List.append_assoc, List.drop_left' hbeflen]
  have houtdrop2 : out.drop (idx + len - 1) =
      openNP ++ (inside ++ (closeNP ++ ')' :: rest)) := by
    rw [houtdrop1]
    simp [wrapNP, List.append_assoc]
  have hsopen : scanPrefixDepth openNP 0 = some 0 := by decide
  have hsclose : scanPrefixDepth closeNP 0 = some 0 := by decide
  have hclosescan : ∀ (rs : List Char) (i : Nat), parenScan (')' :: rs) i 0 = some i := by
    intro rs i
    rw [parenScan]
    simp
  have hscan2 : parenScan (out.drop (idx + len - 1)) (idx + len - 1) 0 =
      some (idx + len - 1 + 23 + k + 24) := by
    rw [houtdrop2, parenScan_append openNP _ _ _ _ hsopen,
      parenScan_append inside _ _ _ _ hsp,
      parenScan_append closeNP _ _ _ _ hsclose, hclosescan]
    rw [ho23, hc24, hinlen]
  have hwlen : (wrapNP inside).length = 23 + k + 24 := by
    simp only [wrapNP, List.length_append, ho23, hc24, hinlen]
    try omega
  have hout_take : out.take (idx + len - 1) = code.take (idx + len - 1) := by
    rw [hoview, List.append_assoc, List.take_left' hbeflen]
  have hout_mid : (out.drop (idx + len - 1)).take
      (idx + len - 1 + 23 + k + 24 - (idx + len - 1)) = wrapNP inside := by
    rw [houtdrop1, show idx + len - 1 + 23 + k + 24 - (idx + len - 1) = 23 + k + 24
      by omega, List.take_left' hwlen]
  have hout_drop : out.drop (idx + len - 1 + 23 + k + 24) = code.drop e := by
    rw [hoview, hdrop_e,
      List.drop_left' (by rw [List.length_append, hbeflen, hwlen]; omega), ← hdrop_e]
  rw [hout, wrapJSXReturn_eq out idx len (idx + len - 1 + 23 + k + 24) hm2 hscan2,
    hout_take, hout_mid, hout_drop, hek, ← hinside]

/-- C1: the spec says `wrapJSXReturn` replaces the text from the `'<'` up to
the matching close parenthesis by that text wrapped in the provider tags. The
code computes `start = m.index + m[0].length - 1`, which points at the
character AFTER the `'<'` (the `[^>]` of the match), contradicting the inline
comment `position at '<'`: on `"return (<a/>);"` it produces
`"return (<<NotificationsProvider>a/></NotificationsProvider>);"` (stray `<`
left outside the wrap), not the claimed
`"return (<NotificationsProvider><a/></NotificationsProvider>);"`. -/
theorem c1_wrap_starts_after_lt :
    wrapJSXReturn (c1InS.toList) = c1OutS.toList ∧ c1OutS.toList ≠ c1ClaimedS.toList := by
  constructor
  · decide
  · decide

/-- C2: the duplicate-wrap guard regex of cli.js line 231 is a regex literal
whose `${Provider}` is not interpolated, so the guard matches nothing; for
every input whose extracted return-JSX already contains a
`NotificationsProvider` element (and not the literal `${Provider}` text) the
guard does not fire, the wrap splices the tags in, and applying
`wrapJSXReturn` to its own output wraps a second time — the step is not
idempotent. -/
theorem c2_guard_dead_not_idempotent (code : List Char) (idx len e : Nat)
    (hm : findFrom matchReturnAt code 0 = some (idx, len))
    (hs : parenScan (code.drop (idx + len - 1)) (idx + len - 1) 0 = some e)
    (hin : containsElementNP ((code.drop (idx + len - 1)).take (e - (idx + len - 1))) = true)
    (hnl : containsL ((code.drop (idx + len - 1)).take (e - (idx + len - 1)))
      dollarBraceL = false) :
    guardMatch ((code.drop (idx + len - 1)).take (e - (idx + len - 1))) = false ∧
    wrapJSXReturn code =
      code.take (idx + len - 1) ++
        wrapNP ((code.drop (idx + len - 1)).take (e - (idx + len - 1))) ++ code.drop e ∧
    wrapJSXReturn (wrapJSXReturn code) =
      code.take (idx + len - 1) ++
        wrapNP (wrapNP ((code.drop (idx + len - 1)).take (e - (idx + len - 1)))) ++
        code.drop e ∧
    wrapJSXReturn (wrapJSXReturn code) ≠ wrapJSXReturn code := by
  refine ⟨guardMatch_false _, wrapJSXReturn_eq code idx len e hm hs,
    wrapJSXReturn_twice code idx len e hm hs, ?_⟩
  rw [wrapJSXReturn_twice code idx len e hm hs, wrapJSXReturn_eq code idx len e hm hs]
  intro hcontra
  have hlen := congrArg List.length hcontra
  have ho23 : openNP.length = 23 := by decide
  have hc24 : closeNP.length = 24 := by decide
  simp only [wrapNP, List.length_append, ho23, hc24] at hlen
  omega

/-- Witness for C2 at a concrete root file whose return-JSX already holds a
`NotificationsProvider` element: wrapping is not idempotent there. -/
theorem c2_witness :
    wrapJSXReturn (wrapJSXReturn (c2InS.toList)) ≠ wrapJSXReturn (c2InS.toList) :=
  (c2_guard_dead_not_idempotent (c2InS.toList) 0 10 62 (by decide) (by decide)
    (by decide) (by decide)).2.2.2

/-- C5: stack detection yields exactly the three fixed variants, with `next`
keyed to the merged dependency keys, `react-native` to its key or the marker
files, `react` as the fallthrough, and `next` taking precedence. -/
theorem c5_detect_stack (pkg : Option Manifest) (ex : String → Bool) :
    (detectStack pkg ex = Stack.next ↔ nextS ∈ mergedDeps pkg) ∧
    (detectStack pkg ex = Stack.reactNative ↔
      (nextS ∉ mergedDeps pkg ∧ (reactNativeS ∈ mergedDeps pkg ∨
        ex appJsonS = true ∨ ex expoJsonS = true ∨ ex expoConfigS = true))) ∧
    (detectStack pkg ex = Stack.react ↔
      (nextS ∉ mergedDeps pkg ∧ reactNativeS ∉ mergedDeps pkg ∧
        ex appJsonS = false ∧ ex expoJsonS = false ∧ ex expoConfigS = false)) := by
  have hbridge : ∀ (l : List String) (a : String), l.contains a = true ↔ a ∈ l :=
    fun l a => List.elem_iff
  unfold detectStack
  simp only [← hbridge]
  cases h1 : (mergedDeps pkg).contains nextS <;>
    cases h2 : (mergedDeps pkg).contains reactNativeS <;>
      cases h3 : ex appJsonS <;> cases h4 : ex expoJsonS <;> cases h5 : ex expoConfigS <;>
        simp [h1, h2, h3, h4, h5]

/-- C10: a missing or invalid `package.json` (the `none` manifest) never
aborts detection: the merged dependency map is empty, the result is still one
of the variants — never `next` — and `react-native` can only come from the
marker files. -/
theorem c10_missing_manifest_safe (ex : String → Bool) :
    mergedDeps none = [] ∧
    (detectStack none ex = Stack.reactNative ∨ detectStack none ex = Stack.react) ∧
    (detectStack none ex = Stack.reactNative ↔
      (ex appJsonS = true ∨ ex expoJsonS = true ∨ ex expoConfigS = true)) := by
  refine ⟨rfl, ?_, ?_⟩ <;>
    unfold detectStack <;>
      cases h3 : ex appJsonS <;> cases h4 : ex expoJsonS <;> cases h5 : ex expoConfigS <;>
        simp [mergedDeps, h3, h4, h5, List.contains]

/-- A successful `find?` returns a satisfying element and nothing earlier in
the list satisfies the predicate. -/
theorem find?_first {α : Type} (P : α → Bool) :
    ∀ (l : List α) (x : α), l.find? P = some x →
      P x = true ∧ ∃ i, l[i]? = some x ∧ ∀ q ∈ l.take i, P q = false := by
  intro l
  induction l with
  | nil =>
    intro x h
    rw [List.find?_nil] at h
    cases h
  | cons a t ih =>
    intro x h
    by_cases hpa : P a = true
    · rw [List.find?_cons_of_pos _ hpa] at h
      injection h with h'
      subst h'
      exact ⟨hpa, 0, by simp, by simp⟩
    · rw [List.find?_cons_of_neg _ (by simpa using hpa)] at h
      obtain ⟨hx, i, hi, hq⟩ := ih x h
      refine ⟨hx, i + 1, by simpa using hi, ?_⟩
      intro q hq2
      rw [List.take_succ_cons] at hq2
      rcases List.mem_cons.mp hq2 with rfl | hq3
      · simpa using hpa
      · exact hq q hq3

/-- C6: the selected root file is the first existing candidate of the fixed
16-entry priority list starting at `app/layout.tsx` and ending at
`src/index.jsx`; no later candidate is selected when an earlier one exists. -/
theorem c6_root_priority (ex : String → Bool) (p : String) (h : findRoot ex = some p) :
    candidates.length = 16 ∧ candidates.head? = some appLayoutTsxS ∧
    candidates.getLast? = some srcIndexJsxS ∧ ex p = true ∧
    ∃ i, candidates[i]? = some p ∧ ∀ q ∈ candidates.take i, ex q = false := by
  obtain ⟨hx, i, hi, hq⟩ := find?_first ex candidates p h
  exact ⟨by decide, by decide, by decide, hx, i, hi, hq⟩

/-- Witness for C6: with only `App.tsx` on disk the seventh candidate is
selected and every earlier candidate was tested false. -/
theorem c6_witness :
    candidates.length = 16 ∧ candidates.head? = some appLayoutTsxS ∧
    candidates.getLast? = some srcIndexJsxS ∧ exA appTsxS = true ∧
    ∃ i, candidates[i]? = some appTsxS ∧ ∀ q ∈ candidates.take i, exA q = false :=
  c6_root_priority exA appTsxS (by decide)

/-- What a successful backward `lastIndexOf` search guarantees: a hit at the
result with no later hit within the searched range. -/
theorem lastOccAux_some (s pat : List Char) :
    ∀ (n m : Nat), lastOccAux s pat n = some m →
      isPrefixL pat (s.drop m) = true ∧ m ≤ n ∧
        ∀ r, m < r → r ≤ n → isPrefixL pat (s.drop r) = false := by
  intro n
  induction n with
  | zero =>
    intro m h
    rw [lastOccAux] at h
    by_cases hp : isPrefixL pat s = true
    · rw [if_pos hp] at h
      injection h with h'
      subst h'
      exact ⟨by rw [List.drop_zero]; exact hp, Nat.le_refl 0, fun r hr1 hr2 => by omega⟩
    · rw [if_neg hp] at h
      cases h
  | succ n ih =>
    intro m h
    rw [lastOccAux] at h
    by_cases hp : isPrefixL pat (s.drop (n + 1)) = true
    · rw [if_pos hp] at h
      injection h with h'
      subst h'
      exact ⟨hp, Nat.le_refl _, fun r hr1 hr2 => by omega⟩
    · rw [if_neg hp] at h
      obtain ⟨h1, h2, h3⟩ := ih m h
      refine ⟨h1, by omega, ?_⟩
      intro r hr1 hr2
      rcases Nat.lt_or_ge r (n + 1) with hr | hr
      · exact h3 r hr1 (by omega)
      · have hreq : r = n + 1 := by omega
        subst hreq
        exact Bool.eq_false_iff.mpr hp

/-- A failed backward search means no hit anywhere in the searched range. -/
theorem lastOccAux_none (s pat : List Char) :
    ∀ (n : Nat), lastOccAux s pat n = none →
      ∀ r, r ≤ n → isPrefixL pat (s.drop r) = false := by
  intro n
  induction n with
  | zero =>
    intro h r hr
    rw [lastOccAux] at h
    by_cases hp : isPrefixL pat s = true
    · rw [if_pos hp] at h
      cases h
    · have hreq : r = 0 := by omega
      subst hreq
      rw [List.drop_zero]
      exact Bool.eq_false_iff.mpr hp
  | succ n ih =>
    intro h r hr
    rw [lastOccAux] at h
    by_cases hp : isPrefixL pat (s.drop (n + 1)) = true
    · rw [if_pos hp] at h
      cases h
    · rw [if_neg hp] at h
      rcases Nat.lt_or_ge r (n + 1) with hrlt | hrge
      · exact ih h r (by omega)
      · have hreq : r = n + 1 := by omega
        subst hreq
        exact Bool.eq_false_iff.mpr hp

/-- The rightmost occurrence is exactly what `lastIndexOf` returns. -/
theorem jsLastIndexOf_greatest (s pat : List Char) (q : Nat)
    (h : GreatestOcc s pat q) : jsLastIndexOf s pat = some q := by
  obtain ⟨⟨rr, hocc⟩, hgreat⟩ := h
  have hqle : q ≤ s.length := by
    by_contra hcon
    push_neg at hcon
    have hnil : s.drop q = [] := List.drop_eq_nil_of_le (by omega)
    rw [hnil] at hocc
    have hpat : pat = [] := by
      cases pat with
      | nil => rfl
      | cons a b => exact absurd hocc.symm (by simp)
    refine hgreat (q + 1) (by omega) ⟨[], ?_⟩
    rw [List.drop_eq_nil_of_le (by omega), hpat]
    rfl
  rw [jsLastIndexOf]
  cases hl : lastOccAux s pat s.length with
  | none =>
    have hfalse := lastOccAux_none s pat s.length hl q hqle
    exact absurd ((isPrefixL_iff pat _).mpr ⟨rr, hocc⟩) (by rw [hfalse]; simp)
  | some m =>
    obtain ⟨h1, h2, h3⟩ := lastOccAux_some s pat s.length m hl
    rcases Nat.lt_trichotomy m q with hlt | heq | hgt
    · have hfalse := h3 q hlt hqle
      exact absurd ((isPrefixL_iff pat _).mpr ⟨rr, hocc⟩) (by rw [hfalse]; simp)
    · rw [heq]
    · exact absurd ((isPrefixL_iff pat _).mp h1) (fun ⟨rm, hrm⟩ => hgreat m hgt ⟨rm, hrm⟩)

/-- Building a rightmost occurrence from decidable bounded facts. -/
theorem greatestOcc_of (s pat : List Char) (q : Nat) (hne : pat ≠ [])
    (h1 : isPrefixL pat (s.drop q) = true)
    (h2 : ∀ r, r < s.length + 1 → q < r → isPrefixL pat (s.drop r) = false) :
    GreatestOcc s pat q := by
  refine ⟨(isPrefixL_iff pat _).mp h1, ?_⟩
  rintro r hr ⟨rr, hocc⟩
  rcases Nat.le_total r s.length with hle | hgt
  · have hfalse := h2 r (by omega) hr
    exact absurd ((isPrefixL_iff pat _).mpr ⟨rr, hocc⟩) (by rw [hfalse]; simp)
  · have hnil : s.drop r = [] := List.drop_eq_nil_of_le (by omega)
    rw [hnil] at hocc
    apply hne
    cases pat with
    | nil => rfl
    | cons a b => exact absurd hocc.symm (by simp)

/-- Guard case of the import step. -/
theorem importStep_guard (code iL : List Char)
    (h : (containsL code iL || importProviderRegex code) = true) :
    importStep code iL = code := by
  rw [importStep, if_pos h]

/-- No-import case of the import step: the line is prepended. -/
theorem importStep_prepend (code iL : List Char)
    (h1 : (containsL code iL || importProviderRegex code) = false)
    (h2 : (importMatches code).getLast? = none) :
    importStep code iL = iL ++ '\n' :: code := by
  rw [importStep, h1]
  simp only [Bool.false_eq_true, if_false]
  rw [h2]

/-- Insertion case of the import step: splice at `importIdx`. -/
theorem importStep_insert (code iL : List Char) (p len : Nat)
    (h1 : (containsL code iL || importProviderRegex code) = false)
    (h2 : (importMatches code).getLast? = some (p, len)) :
    importStep code iL =
      code.take (importIdx code p len) ++
        '\n' :: (iL ++ '\n' :: code.drop (importIdx code p len)) := by
  rw [importStep, h1]
  simp only [Bool.false_eq_true, if_false]
  rw [h2]

/-- An inserted output always contains the inserted line. -/
theorem containsL_spliced (X iL Y : List Char) :
    containsL (X ++ '\n' :: (iL ++ Y)) iL = true := by
  refine (containsL_iff iL _).mpr ⟨X.length + 1, Y, ?_⟩
  rw [List.drop_append]
  rfl

/-- C4: when the content neither contains the computed import line nor
matches the provider-import regex, the line is inserted on a new line after
`lastIndexOf(lastImport) + lastImport.length` — the position after the
rightmost occurrence in the file of the TEXT of the last import-matching line
(which is the end of that line itself only when its text does not recur
later, e.g. inside a string literal); with no import line it is prepended;
otherwise the content is unchanged; and a second run inserts no duplicate. -/
theorem c4_import_step (code iL : List Char) :
    ((containsL code iL || importProviderRegex code) = true →
      importStep code iL = code) ∧
    ((containsL code iL || importProviderRegex code) = false →
      ((importMatches code).getLast? = none →
        importStep code iL = iL ++ '\n' :: code) ∧
      (∀ p len q, (importMatches code).getLast? = some (p, len) →
        GreatestOcc code ((code.drop p).take len) q →
        importStep code iL =
          code.take (q + len) ++ '\n' :: (iL ++ '\n' :: code.drop (q + len)))) ∧
    importStep (importStep code iL) iL = importStep code iL := by
  refine ⟨importStep_guard code iL, ?_, ?_⟩
  · intro h1
    refine ⟨importStep_prepend code iL h1, ?_⟩
    intro p len q h2 hocc
    have hidx : importIdx code p len = q + len := by
      rw [importIdx, jsLastIndexOf_greatest code _ q hocc]
    rw [importStep_insert code iL p len h1 h2, hidx]
  · by_cases hg : (containsL code iL || importProviderRegex code) = true
    · rw [importStep_guard code iL hg]
      exact importStep_guard code iL hg
    · have hgf : (containsL code iL || importProviderRegex code) = false := by
        simpa using hg
      cases hml : (importMatches code).getLast? with
      | none =>
        rw [importStep_prepend code iL hgf hml]
        apply importStep_guard
        have : containsL (iL ++ '\n' :: code) iL = true :=
          (containsL_iff iL _).mpr ⟨0, '\n' :: code, by rw [List.drop_zero]⟩
        rw [this]
        rfl
      | some pl =>
        obtain ⟨p, len⟩ := pl
        rw [importStep_insert code iL p len hgf hml]
        apply importStep_guard
        rw [containsL_spliced]
        rfl

/-- Counterexample for C4 as stated: in
`"import X;\nconst s = \"import X;\";"` the only import line ends at index 9,
but the text `"import X;"` recurs inside the string literal, `lastIndexOf`
finds the later copy, and the line is NOT inserted after the last import
line (it lands inside the string literal, at index 30). -/
theorem c4_counterexample :
    importStep (c4InS.toList) c4ILn ≠
      (c4InS.toList).take 9 ++ '\n' :: (c4ILn ++ '\n' :: (c4InS.toList).drop 9) := by
  decide

/-- Witness for C4 (amended): on the same input the insertion lands after the
rightmost occurrence of the line's text, at index 21 + 9 = 30. -/
theorem c4_witness :
    importStep (c4InS.toList) c4ILn =
      (c4InS.toList).take (21 + 9) ++
        '\n' :: (c4ILn ++ '\n' :: (c4InS.toList).drop (21 + 9)) :=
  ((c4_import_step (c4InS.toList) c4ILn).2.1 (by decide)).2 0 9 21 (by decide)
    (greatestOcc_of _ _ 21 (by decide) (by decide) (by decide))

/-- A list all of whose elements satisfy `p` is its own `takeWhile`. -/
theorem takeWhile_all (p : Char → Bool) :
    ∀ (w : List Char), (∀ a ∈ w, p a = true) → w.takeWhile p = w := by
  intro w
  induction w with
  | nil => intro _; rfl
  | cons a t ih =>
    intro h
    rw [List.takeWhile_cons, h a (List.mem_cons_self a t), ih fun b hb =>
      h b (List.mem_cons_of_mem a hb)]
    simp

/-- The head surviving `dropWhile` fails the predicate. -/
theorem dropWhile_head_false (p : Char → Bool) :
    ∀ (l : List Char) (c : Char) (t : List Char), l.dropWhile p = c :: t → p c = false := by
  intro l
  induction l with
  | nil => intro c t h; cases h
  | cons a l' ih =>
    intro c t h
    rw [List.dropWhile_cons] at h
    by_cases hp : p a = true
    · rw [if_pos hp] at h
      exact ih c t h
    · rw [if_neg hp] at h
      injection h with h1 h2
      subst h1
      exact Bool.eq_false_iff.mpr hp

/-- Executable-to-propositional direction for the fallback regex matcher. -/
theorem genMatchAt_some (l : List Char) (n : Nat) (h : genMatchAt l = some n) :
    GenMatchP l n := by
  by_cases h6 : l.take 6 = retL
  case neg => rw [genMatchAt, if_neg h6] at h; cases h
  rw [genMatchAt, if_pos h6] at h
  cases hdw : (l.drop 6).dropWhile jsWs with
  | nil => rw [hdw] at h; cases h
  | cons c1 l2 =>
    rw [hdw] at h
    dsimp only at h
    by_cases hc1 : c1 = '('
    case neg => rw [if_neg hc1] at h; cases h
    rw [if_pos hc1] at h
    injection h with hn
    subst hc1
    refine ⟨(l.drop 6).takeWhile jsWs, l2.takeWhile jsWs, l2.dropWhile jsWs,
      fun a ha => List.mem_takeWhile_imp ha, fun a ha => List.mem_takeWhile_imp ha,
      fun c t hct => dropWhile_head_false jsWs l2 c t hct, ?_, by omega⟩
    have h1 : l = retL ++ l.drop 6 := by
      conv_lhs => rw [← List.take_append_drop 6 l]
      rw [h6]
    have h2 : l.drop 6 = (l.drop 6).takeWhile jsWs ++ '(' :: l2 := by
      conv_lhs => rw [← List.takeWhile_append_dropWhile jsWs (l.drop 6)]
      rw [hdw]
    have h3 : l2 = l2.takeWhile jsWs ++ l2.dropWhile jsWs :=
      (List.takeWhile_append_dropWhile jsWs l2).symm
    conv_lhs => rw [h1, h2, h3]
    rw [List.append_assoc]

/-- Propositional-to-executable direction for the fallback regex matcher. -/
theorem genMatchAt_of (l : List Char) (n : Nat) (h : GenMatchP l n) :
    genMatchAt l = some n := by
  rcases h with ⟨w1, w2, r, hw1, hw2, hr, rfl, rfl⟩
  have hretlen : retL.length = 6 := by decide
  have h6 : (retL ++ (w1 ++ '(' :: (w2 ++ r))).take 6 = retL := by
    rw [← hretlen, List.take_left]
  have hd6 : (retL ++ (w1 ++ '(' :: (w2 ++ r))).drop 6 = w1 ++ '(' :: (w2 ++ r) := by
    rw [← hretlen, List.drop_left]
  have hcanon1 := while_canon jsWs w1 '(' (w2 ++ r) hw1 (by decide)
  have htw2 : (w2 ++ r).takeWhile jsWs = w2 := by
    cases r with
    | nil =>
      rw [List.append_nil]
      exact takeWhile_all jsWs w2 hw2
    | cons c t =>
      exact (while_canon jsWs w2 c t hw2 (hr c t rfl)).1
  rw [genMatchAt, List.append_assoc, if_pos h6, hd6, hcanon1.2]
  dsimp only
  rw [if_pos rfl, hcanon1.1, htw2]

/-- Building the leftmost propositional fallback match from decidable facts. -/
theorem genLeast_of (code : List Char) (p n : Nat)
    (h1 : genMatchAt (code.drop p) = some n)
    (h2 : ∀ j, j < p → genMatchAt (code.drop j) = none) : GenLeast code p n := by
  refine ⟨genMatchAt_some _ _ h1, ?_⟩
  intro j hj m hm
  have hx := h2 j hj
  rw [genMatchAt_of _ _ hm] at hx
  cases hx

/-- The leftmost propositional match is what the search finds. -/
theorem findFrom_gen_of_least (code : List Char) (p n : Nat) (h : GenLeast code p n) :
    findFrom genMatchAt code 0 = some (p, n) := by
  obtain ⟨hP, hleast⟩ := h
  have h1 := genMatchAt_of _ _ hP
  have h2 : ∀ j, j < p → genMatchAt (code.drop j) = none := by
    intro j hj
    cases hgm : genMatchAt (code.drop j) with
    | none => rfl
    | some m => exact absurd (genMatchAt_some _ _ hgm) (hleast j hj m)
  simpa using findFrom_of genMatchAt code 0 p n h1 h2

/-- With no occurrence at all, `lastIndexOf` reports `-1` (`none`). -/
theorem jsLastIndexOf_none_of (s pat : List Char) (hno : ∀ q, ¬ OccursAt s pat q) :
    jsLastIndexOf s pat = none := by
  cases hjl : jsLastIndexOf s pat with
  | none => rfl
  | some q =>
    rw [jsLastIndexOf] at hjl
    obtain ⟨hpre, _, _⟩ := lastOccAux_some s pat s.length q hjl
    exact absurd ((isPrefixL_iff _ _).mp hpre) fun ⟨rr, hrr⟩ => hno q ⟨rr, hrr⟩

/-- The wrap phase passes a changed wrap output straight through. -/
theorem wrapPhase_changed (stack : Stack) (code : List Char)
    (h : wrapJSXReturn code ≠ code) : wrapPhase stack code = wrapJSXReturn code := by
  rw [wrapPhase]
  rw [if_neg h]

/-- The wrap phase runs the Next.js fallback under its three conditions. -/
theorem wrapPhase_next (stack : Stack) (code : List Char)
    (h : wrapJSXReturn code = code)
    (hc : stack = Stack.next ∧ exportDefaultFunctionTest code = true ∧
      containsChildren code = true) : wrapPhase stack code = nextFallback code := by
  have hcond : (decide (stack = Stack.next) && exportDefaultFunctionTest code &&
      containsChildren code) = true := by
    rw [hc.2.1, hc.2.2]
    simp [hc.1]
  rw [wrapPhase]
  rw [if_pos h, if_pos hcond]

/-- The wrap phase runs the generic fallback when the Next.js conditions fail
and `/return\s*\(/` matches. -/
theorem wrapPhase_generic (stack : Stack) (code : List Char)
    (h : wrapJSXReturn code = code)
    (hnc : ¬ (stack = Stack.next ∧ exportDefaultFunctionTest code = true ∧
      containsChildren code = true))
    (hrp : returnParenTest code = true) :
    wrapPhase stack code = genericFallback code := by
  have hcond : (decide (stack = Stack.next) && exportDefaultFunctionTest code &&
      containsChildren code) = false := by
    by_contra hb
    rw [← ne_eq, Bool.ne_false_iff] at hb
    simp only [Bool.and_eq_true, decide_eq_true_eq] at hb
    exact hnc ⟨hb.1.1, hb.1.2, hb.2⟩
  rw [wrapPhase]
  rw [if_pos h, hcond]
  simp only [Bool.false_eq_true, if_false]
  rw [if_pos hrp]

/-- The wrap phase leaves the code alone when nothing applies. -/
theorem wrapPhase_id (stack : Stack) (code : List Char)
    (h : wrapJSXReturn code = code)
    (hnc : ¬ (stack = Stack.next ∧ exportDefaultFunctionTest code = true ∧
      containsChildren code = true))
    (hrp : returnParenTest code = false) : wrapPhase stack code = code := by
  have hcond : (decide (stack = Stack.next) && exportDefaultFunctionTest code &&
      containsChildren code) = false := by
    by_contra hb
    rw [← ne_eq, Bool.ne_false_iff] at hb
    simp only [Bool.and_eq_true, decide_eq_true_eq] at hb
    exact hnc ⟨hb.1.1, hb.1.2, hb.2⟩
  rw [wrapPhase]
  rw [if_pos h, hcond]
  simp only [Bool.false_eq_true, if_false]
  rw [hrp]
  simp only [Bool.false_eq_true, if_false]

/-- The generic fallback with no `");"` anywhere: only the opening tag goes
in. -/
theorem genericFallback_no_close (code : List Char) (p n : Nat)
    (hfind : findFrom genMatchAt code 0 = some (p, n))
    (hno : jsLastIndexOf (code.take (p + n) ++ openNP ++ code.drop (p + n))
      parenSemiL = none) :
    genericFallback code = code.take (p + n) ++ openNP ++ code.drop (p + n) := by
  rw [genericFallback, hfind]
  dsimp only
  rw [hno]

/-- The generic fallback with a last `");"`: the closing tag goes in right
before it. -/
theorem genericFallback_close (code : List Char) (p n q : Nat)
    (hfind : findFrom genMatchAt code 0 = some (p, n))
    (hsome : jsLastIndexOf (code.take (p + n) ++ openNP ++ code.drop (p + n))
      parenSemiL = some q) :
    genericFallback code =
      (code.take (p + n) ++ openNP ++ code.drop (p + n)).take q ++ closeNP ++
        (code.take (p + n) ++ openNP ++ code.drop (p + n)).drop q := by
  rw [genericFallback, hfind]
  dsimp only
  rw [hsome]

/-- C3: the fallback step runs exactly when `wrapJSXReturn` changed nothing;
the Next.js-layout strategy is chosen exactly under the three conditions of
cli.js line 134; otherwise when `/return\s*\(/` matches, the generic strategy
inserts the opening tag immediately after the first `return (` match
(including the whitespace the `\s*` of the replace pattern consumes after the
parenthesis — the amendment) and the closing tag immediately before the last
occurrence of `");"` in the resulting text when there is one. -/
theorem c3_wrap_fallbacks (stack : Stack) (code : List Char) :
    (wrapJSXReturn code ≠ code → wrapPhase stack code = wrapJSXReturn code) ∧
    (wrapJSXReturn code = code →
      ((stack = Stack.next ∧ exportDefaultFunctionTest code = true ∧
          containsChildren code = true) → wrapPhase stack code = nextFallback code) ∧
      (¬ (stack = Stack.next ∧ exportDefaultFunctionTest code = true ∧
          containsChildren code = true) →
        (returnParenTest code = true → wrapPhase stack code = genericFallback code) ∧
        (returnParenTest code = false → wrapPhase stack code = code))) ∧
    (∀ p n, GenLeast code p n →
      ((∀ q, ¬ OccursAt (code.take (p + n) ++ openNP ++ code.drop (p + n))
          parenSemiL q) →
        genericFallback code = code.take (p + n) ++ openNP ++ code.drop (p + n)) ∧
      (∀ q, GreatestOcc (code.take (p + n) ++ openNP ++ code.drop (p + n))
          parenSemiL q →
        genericFallback code =
          (code.take (p + n) ++ openNP ++ code.drop (p + n)).take q ++ closeNP ++
            (code.take (p + n) ++ openNP ++ code.drop (p + n)).drop q)) := by
  refine ⟨wrapPhase_changed stack code, ?_, ?_⟩
  · intro h
    exact ⟨wrapPhase_next stack code h,
      fun hnc => ⟨wrapPhase_generic stack code h hnc, wrapPhase_id stack code h hnc⟩⟩
  · intro p n hleast
    have hfind := findFrom_gen_of_least code p n hleast
    constructor
    · intro hno
      exact genericFallback_no_close code p n hfind (jsLastIndexOf_none_of _ _ hno)
    · intro q hgq
      exact genericFallback_close code p n q hfind (jsLastIndexOf_greatest _ _ q hgq)

/-- Counterexample for C3 as stated: on `"return ( x);"` (stack `react`) the
opening tag is inserted after the whitespace following the parenthesis, so
the output differs from the one the claim describes (tag immediately after
`return (`). -/
theorem c3_counterexample :
    wrapPhase Stack.react (c3InS.toList) ≠ c3ClaimedS.toList := by
  decide

/-- Witness for C3 (amended) at `"return ( x);"`: the wrap step changes
nothing, the Next.js conditions fail, `/return\s*\(/` matches, and the
generic fallback runs. -/
theorem c3_witness :
    wrapPhase Stack.react (c3InS.toList) = genericFallback (c3InS.toList) :=
  (((c3_wrap_fallbacks Stack.react (c3InS.toList)).2.1 (by decide)).2
    (by decide)).1 (by decide)

/-- C9: in the generic fallback, a code with a `/return\s*\(/` match but no
`");"` gets the opening tag inserted while no closing tag is inserted
anywhere, so the written root file holds an unbalanced provider tag (the
closing tag is absent whenever the input did not already contain one). -/
theorem c9_unbalanced_open (stack : Stack) (code : List Char)
    (h1 : wrapJSXReturn code = code)
    (h2 : ¬ (stack = Stack.next ∧ exportDefaultFunctionTest code = true ∧
      containsChildren code = true))
    (h3 : returnParenTest code = true)
    (h4 : containsL code parenSemiL = false) :
    ∃ p n, GenLeast code p n ∧
      wrapPhase stack code = code.take (p + n) ++ openNP ++ code.drop (p + n) ∧
      containsL (wrapPhase stack code) openNP = true ∧
      (containsL code closeNP = false →
        containsL (wrapPhase stack code) closeNP = false) := by
  rw [returnParenTest, Option.isSome_iff_exists] at h3
  obtain ⟨⟨p, n⟩, hfind⟩ := h3
  obtain ⟨k0, hk0, hgm, hnone⟩ := findFrom_some genMatchAt code 0 p n hfind
  rw [show k0 = p from by omega] at hgm hnone
  have hleast : GenLeast code p n := genLeast_of code p n hgm hnone
  have hnoOcc : ∀ q, ¬ OccursAt (code.take (p + n) ++ openNP ++ code.drop (p + n))
      parenSemiL q := by
    intro q hocc
    have hc : containsL (code.take (p + n) ++ openNP ++ code.drop (p + n))
        parenSemiL = true := (containsL_iff _ _).mpr ⟨q, hocc⟩
    have hsp := contains_splice (code.take (p + n)) openNP (code.drop (p + n))
      parenSemiL (by decide) hc
    rw [List.take_append_drop, h4] at hsp
    cases hsp
  have hgen : genericFallback code = code.take (p + n) ++ openNP ++ code.drop (p + n) :=
    genericFallback_no_close code p n hfind (jsLastIndexOf_none_of _ _ hnoOcc)
  have hphase : wrapPhase stack code =
      code.take (p + n) ++ openNP ++ code.drop (p + n) := by
    rw [wrapPhase_generic stack code h1 h2 (by rw [returnParenTest, hfind]; rfl), hgen]
  refine ⟨p, n, hleast, hphase, ?_, ?_⟩
  · rw [hphase, List.append_assoc]
    have : openNP ++ code.drop (p + n) = openNP ++ code.drop (p + n) := rfl
    exact containsL_append_self _ _ _
  · intro hnc
    rw [hphase]
    apply close_splice
    rw [List.take_append_drop]
    exact hnc

/-- Witness for C9 at `"return (x"` (stack `react`): only the opening tag is
inserted and the output holds no closing tag. -/
theorem c9_witness :
    containsL (wrapPhase Stack.react (c9InS.toList)) openNP = true ∧
    containsL (wrapPhase Stack.react (c9InS.toList)) closeNP = false := by
  obtain ⟨p, n, -, -, hopen, hclose⟩ := c9_unbalanced_open Stack.react (c9InS.toList)
    (by decide) (by decide) (by decide) (by decide)
  exact ⟨hopen, hclose (by decide)⟩

/-- The source-patching tail either throws (leaving the events as they were)
or appends exactly one write of the root file. -/
theorem patchAndWrite_cases (env : Env) (stack : Stack) (rootRel providerFile : String)
    (evs : List FsEvent) :
    (∃ msg, patchAndWrite env stack rootRel providerFile evs = (evs, Outcome.threw msg)) ∨
    (∃ c, patchAndWrite env stack rootRel providerFile evs =
      (evs ++ [FsEvent.write rootRel c], Outcome.finished)) := by
  rw [patchAndWrite]
  cases hr : env.readFile rootRel with
  | error e =>
    left
    exact ⟨e, rfl⟩
  | ok code =>
    dsimp only
    by_cases hw : env.writeFails rootRel = true
    · rw [if_pos hw]
      left
      exact ⟨_, rfl⟩
    · rw [if_neg hw]
      right
      exact ⟨_, rfl⟩

/-- Every run ends in `exit 1` (no root), a caught exception, or normal
completion. -/
theorem runBody_outcomes (env : Env) :
    (runBody env).2 = Outcome.exited 1 ∨
    (∃ msg, (runBody env).2 = Outcome.threw msg) ∨
    (runBody env).2 = Outcome.finished := by
  rw [runBody]
  cases hfr : findRoot env.fsExists with
  | none =>
    left
    rfl
  | some rootRel =>
    dsimp only
    by_cases hmk : env.mkdirFails = true
    · rw [if_pos hmk]
      right; left
      exact ⟨_, rfl⟩
    · rw [if_neg hmk]
      by_cases hex : env.fsExists (providerFileFor (usesTSRoot rootRel)) = true
      · rw [if_pos hex]
        rcases patchAndWrite_cases env _ rootRel _ _ with ⟨msg, hp⟩ | ⟨c, hp⟩
        · rw [hp]
          right; left
          exact ⟨msg, rfl⟩
        · rw [hp]
          right; right
          rfl
      · rw [if_neg hex]
        cases ht : env.readTemplate (templateFor (detectStack env.pkg env.fsExists)) with
        | error e =>
          dsimp only
          right; left
          exact ⟨e, rfl⟩
        | ok tpl =>
          dsimp only
          by_cases hw : env.writeFails (providerFileFor (usesTSRoot rootRel)) = true
          · rw [if_pos hw]
            right; left
            exact ⟨_, rfl⟩
          · rw [if_neg hw]
            rcases patchAndWrite_cases env _ rootRel _ _ with ⟨msg, hp⟩ | ⟨c, hp⟩
            · rw [hp]
              right; left
              exact ⟨msg, rfl⟩
            · rw [hp]
              right; right
              rfl

/-- C7: with no root candidate on disk the run exits with status 1 having
performed no file-system write (the root check precedes every write); any
exception reaches the single top-level catch and also exits non-zero (the
exit status is always 0 or 1, and the only explicit exit is 1). -/
theorem c7_failure_handling (env : Env) :
    (findRoot env.fsExists = none →
      runBody env = ([], Outcome.exited 1) ∧ runCli env = 1) ∧
    (∀ n, (runBody env).2 = Outcome.exited n → n = 1) ∧
    (∀ msg, (runBody env).2 = Outcome.threw msg → runCli env = 1) ∧
    (runCli env = 0 ∨ runCli env = 1) := by
  refine ⟨?_, ?_, ?_, ?_⟩
  · intro h
    have h1 : runBody env = ([], Outcome.exited 1) := by
      rw [runBody, h]
    exact ⟨h1, by rw [runCli, h1]⟩
  · intro n hn
    rcases runBody_outcomes env with ho | ⟨msg, ho⟩ | ho <;> rw [ho] at hn
    · injection hn with h'
      omega
    · cases hn
    · cases hn
  · intro msg hmsg
    rw [runCli, hmsg]
  · rcases runBody_outcomes env with ho | ⟨msg, ho⟩ | ho <;> rw [runCli, ho] <;> simp

/-- Witness for C7 in an environment with no root file at all. -/
theorem c7_witness : runBody envNoRoot = ([], Outcome.exited 1) ∧ runCli envNoRoot = 1 :=
  (c7_failure_handling envNoRoot).1 (by decide)

/-- C8: if the provider file already exists nothing in the run writes to it
(the root-file write targets a candidate path, never the provider path); if
it does not exist, the run writes exactly one file there — the native
template when the detected stack is `react-native`, the web template
otherwise. -/
theorem c8_template_emitter (env : Env) (rootRel : String)
    (hroot : findRoot env.fsExists = some rootRel)
    (hmk : env.mkdirFails = false) :
    (env.fsExists (providerFileFor (usesTSRoot rootRel)) = true →
      ∀ c, FsEvent.write (providerFileFor (usesTSRoot rootRel)) c ∉ (runBody env).1) ∧
    (env.fsExists (providerFileFor (usesTSRoot rootRel)) = false →
      env.writeFails (providerFileFor (usesTSRoot rootRel)) = false →
      ∀ rnT webT, env.readTemplate rnTemplateS = Except.ok rnT →
        env.readTemplate webTemplateS = Except.ok webT →
        (runBody env).1.filter (isWriteTo (providerFileFor (usesTSRoot rootRel))) =
          [FsEvent.write (providerFileFor (usesTSRoot rootRel))
            (if detectStack env.pkg env.fsExists = Stack.reactNative then rnT
             else webT)]) := by
  have hmem : rootRel ∈ candidates := List.mem_of_find?_eq_some hroot
  have hfact : ∀ x ∈ candidates, x ≠ providerFileTsxS ∧ x ≠ providerFileJsxS := by decide
  have hne : rootRel ≠ providerFileFor (usesTSRoot rootRel) := by
    intro heq2
    rcases hfact rootRel hmem with ⟨h1, h2⟩
    rw [providerFileFor] at heq2
    by_cases hts : usesTSRoot rootRel = true
    · rw [if_pos hts] at heq2
      exact h1 heq2
    · rw [if_neg hts] at heq2
      exact h2 heq2
  constructor
  · intro hex c
    have hrb : runBody env = patchAndWrite env (detectStack env.pkg env.fsExists)
        rootRel (providerFileFor (usesTSRoot rootRel)) [FsEvent.mkdir targetDirS] := by
      rw [runBody, hroot]
      dsimp only
      rw [hmk]
      simp only [Bool.false_eq_true, if_false]
      rw [hex]
      simp only [if_true]
    rcases patchAndWrite_cases env (detectStack env.pkg env.fsExists) rootRel
        (providerFileFor (usesTSRoot rootRel)) [FsEvent.mkdir targetDirS] with
      ⟨msg, hp⟩ | ⟨c2, hp⟩
    · rw [hrb, hp]
      intro hmm
      simp only [List.mem_singleton] at hmm
      exact FsEvent.noConfusion hmm
    · rw [hrb, hp]
      intro hmm
      simp only [List.cons_append, List.nil_append, List.mem_cons,
        List.mem_singleton] at hmm
      rcases hmm with hmm | hmm | hmm
      · exact FsEvent.noConfusion hmm
      · injection hmm with h1 h2
        exact hne h1.symm
      · simp at hmm
  · intro hex hw rnT webT hrn hweb
    have hpt : env.readTemplate (templateFor (detectStack env.pkg env.fsExists)) =
        Except.ok (if detectStack env.pkg env.fsExists = Stack.reactNative then rnT
          else webT) := by
      rw [templateFor]
      by_cases hst : detectStack env.pkg env.fsExists = Stack.reactNative
      · rw [if_pos hst, if_pos hst, hrn]
      · rw [if_neg hst, if_neg hst, hweb]
    have hrb : runBody env = patchAndWrite env (detectStack env.pkg env.fsExists)
        rootRel (providerFileFor (usesTSRoot rootRel))
        ([FsEvent.mkdir targetDirS] ++
          [FsEvent.write (providerFileFor (usesTSRoot rootRel))
            (if detectStack env.pkg env.fsExists = Stack.reactNative then rnT
             else webT)]) := by
      rw [runBody, hroot]
      dsimp only
      rw [hmk]
      simp only [Bool.false_eq_true, if_false]
      rw [hex]
      simp only [Bool.false_eq_true, if_false]
      rw [hpt]
      dsimp only
      rw [hw]
      simp only [Bool.false_eq_true, if_false]
    have hbeq : (providerFileFor (usesTSRoot rootRel) ==
        providerFileFor (usesTSRoot rootRel)) = true := by
      simp
    have hbne : (rootRel == providerFileFor (usesTSRoot rootRel)) = false := by
      rw [beq_eq_false_iff_ne]
      exact hne
    rcases patchAndWrite_cases env (detectStack env.pkg env.fsExists) rootRel
        (providerFileFor (usesTSRoot rootRel))
        ([FsEvent.mkdir targetDirS] ++
          [FsEvent.write (providerFileFor (usesTSRoot rootRel))
            (if detectStack env.pkg env.fsExists = Stack.reactNative then rnT
             else webT)]) with ⟨msg, hp⟩ | ⟨c2, hp⟩
    · rw [hrb, hp]
      simp [isWriteTo, List.filter, hbeq]
    · rw [hrb, hp]
      simp [isWriteTo, List.filter, hbeq, hbne]

/-- Witness for C8: with root `App.tsx` and no provider file, exactly one
write hits `src/nim-react-toastify/NotificationsProvider.tsx`, carrying the
(here: web) template. -/
theorem c8_witness :
    (runBody envC8).1.filter (isWriteTo (providerFileFor (usesTSRoot appTsxS))) =
      [FsEvent.write (providerFileFor (usesTSRoot appTsxS)) (tplOkS.toList)] := by
  have h := (c8_template_emitter envC8 appTsxS (by decide) rfl).2 (by decide) rfl
    (tplOkS.toList) (tplOkS.toList) rfl rfl
  simpa using h
